import Mathlib

/-!
Conditions of a managed resource (`pkg/apis/meta/v1/condition.go`)

A shallow embedding of the `Condition` value type and of the `ConditionedStatus`
collection, followed by the verification of their merge, lookup and comparison
semantics.

Conventions of the embedding:

* Go `string`-backed types (`ConditionType`, `ConditionReason`,
  `corev1.ConditionStatus`) are Lean `String`s; Go compares strings bytewise, which on
  valid UTF-8 is the lexicographic order of code points, the order of Lean strings.
* A Go `string` is a Lean `String`, a sequence of Unicode scalar values: strings that
  are not valid UTF-8 are outside the embedding.
* `metav1.Time` is an abstract instant, an `Int`, whose zero value is `0`.
* A slice is a `List`; a pointer `*ConditionedStatus` is an `Option`, `none` being `nil`.
* `CallMemory.SetConditions` is the call `s.SetConditions(c...)` on an explicit backing
  array that the argument and `s.Conditions` may share.
  `ConditionedStatus.SetConditions` is that call when the argument is held in an array
  that `s.Conditions` does not share, so that the argument is a list of values;
  `setConditions_eq_setLoop` describes it by the loops on values.
* A Go run-time panic (index out of range) is the result `none` of a function into
  `Option`.
-/

namespace ConditionV1

/-- A ConditionType represents a condition a resource could be in. -/
abbrev ConditionType := String

/-- A ConditionReason represents the reason a resource is in a condition. -/
abbrev ConditionReason := String

/-- The type `corev1.ConditionStatus` of the Kubernetes API, a string type. -/
abbrev ConditionStatus := String

/-- The type `metav1.Time` of the Kubernetes API, taken as an abstract instant. -/
abbrev Time := Int

/-- The constant `corev1.ConditionTrue`. -/
def ConditionTrue : ConditionStatus := "True"

/-- The constant `corev1.ConditionFalse`. -/
def ConditionFalse : ConditionStatus := "False"

/-- The constant `corev1.ConditionUnknown`. -/
def ConditionUnknown : ConditionStatus := "Unknown"

/-- TypeReady resources are believed to be ready to handle work. -/
def TypeReady : ConditionType := "Ready"

/-- A Condition that may apply to a resource. -/
structure Condition where
  /-- Type of this condition (the field `Type` of the source). -/
  Typ : ConditionType
  /-- Status of this condition: True, False or Unknown. -/
  Status : ConditionStatus
  /-- The last time this condition transitioned from one status to another. -/
  LastTransitionTime : Time
  /-- A Reason for the last transition of this condition. -/
  Reason : ConditionReason
  /-- A Message with details about the last transition, if any. -/
  Message : String
  deriving DecidableEq, Repr

/-- Equal returns true if the condition is identical to the supplied condition,
ignoring the LastTransitionTime. -/
def Condition.Equal (c other : Condition) : Bool :=
  decide (c.Typ = other.Typ) &&
    decide (c.Status = other.Status) &&
    decide (c.Reason = other.Reason) &&
    decide (c.Message = other.Message)

/-- A ConditionedStatus reflects the observed status of a resource. -/
structure ConditionedStatus where
  /-- Conditions of the resource. -/
  Conditions : List Condition
  deriving DecidableEq, Repr

/-- The loop of `GetCondition` over the stored conditions: the first one of type `ct`,
and the Unknown placeholder once the slice is exhausted. -/
def getLoop (ct : ConditionType) : List Condition → Condition
  | [] => { Typ := ct, Status := ConditionUnknown, LastTransitionTime := 0,
            Reason := "", Message := "" }
  | c :: rest => if c.Typ = ct then c else getLoop ct rest

/-- GetCondition returns the condition for the given ConditionType if it exists,
otherwise a condition of that type with status Unknown. The receiver is only read. -/
def ConditionedStatus.GetCondition (s : ConditionedStatus) (ct : ConditionType) :
    Condition :=
  getLoop ct s.Conditions

/-- The assignment `s.Conditions[i] = v`: it panics when `i` is out of range. -/
def writeAt (xs : List Condition) (i : Nat) (v : Condition) : Option (List Condition) :=
  if i < xs.length then some (xs.set i v) else none

/-- The inner loop of `SetConditions`, `for i, existing := range s.Conditions`, with
`k` iterations left, the next index `i`, the current content of the slice and the flag
`exists`. The element is read when its iteration starts; the slice keeps its length,
only the entry at the current index is ever written. -/
def scanExisting (new : Condition) :
    Nat → Nat → List Condition → Bool → Option (List Condition × Bool)
  | 0, _, conds, ex => some (conds, ex)
  | k + 1, i, conds, ex =>
    match conds[i]? with
    | none => none
    | some existing =>
      if existing.Typ ≠ new.Typ then
        scanExisting new k (i + 1) conds ex
      else if existing.Equal new then
        scanExisting new k (i + 1) conds true
      else
        match writeAt conds i new with
        | none => none
        | some conds' => scanExisting new k (i + 1) conds' true

/-- One iteration of the outer loop of `SetConditions`: the scan of the stored
conditions for `new`, then the append when no stored condition has its type. -/
def setOne (conds : List Condition) (new : Condition) : Option (List Condition) :=
  match scanExisting new conds.length 0 conds false with
  | none => none
  | some (conds', ex) => if !ex then some (conds' ++ [new]) else some conds'

/-- The outer loop of `SetConditions`, `for _, new := range c`, on the values of the
supplied conditions. It is what the loop on a memory, `setLoopIn`, computes when the
array of `c` is not the array of `s.Conditions` (`setLoopIn_own`): no write of the loop
then reaches `c`, whose elements are the values given at the call. -/
def setLoop : List Condition → List Condition → Option (List Condition)
  | conds, [] => some conds
  | conds, new :: rest =>
    match setOne conds new with
    | none => none
    | some conds' => setLoop conds' rest

/-- Where the slice `s.Conditions` lives while `SetConditions` runs: in the array of
the argument, as the window of `len` elements from offset `off` with capacity `cap`, or
in an array of its own, of which only the content matters. -/
inductive Receiver where
  | window (off len cap : Nat)
  | own (conds : List Condition)
  deriving DecidableEq, Repr

/-- The memory that a `SetConditions` call works on: the backing array `arr` of the
variadic argument, and the place of `s.Conditions`. -/
structure CallMemory where
  /-- The backing array of the argument `c`. -/
  arr : List Condition
  /-- The slice `s.Conditions`. -/
  recv : Receiver
  deriving DecidableEq, Repr

/-- The content of `s.Conditions` in a memory. -/
def CallMemory.conditions (m : CallMemory) : List Condition :=
  match m.recv with
  | Receiver.own conds => conds
  | Receiver.window off len _ => (m.arr.drop off).take len

/-- One iteration of the outer loop of `SetConditions` on a memory. For a receiver in
the array of the argument, the scan reads and writes the array at `off + i`, and
`append` writes the array at `off + len` while the capacity allows it and otherwise
copies the receiver to an array of its own. -/
def setOneIn (m : CallMemory) (new : Condition) : Option CallMemory :=
  match m.recv with
  | Receiver.own conds =>
    (setOne conds new).map (fun r => { arr := m.arr, recv := Receiver.own r })
  | Receiver.window off len cap =>
    match scanExisting new len off m.arr false with
    | none => none
    | some (arr', ex) =>
      if !ex then
        if len < cap then
          (writeAt arr' (off + len) new).map
            (fun a => { arr := a, recv := Receiver.window off (len + 1) cap })
        else
          some { arr := arr', recv := Receiver.own ((arr'.drop off).take len ++ [new]) }
      else some { arr := arr', recv := Receiver.window off len cap }

/-- The outer loop `for _, new := range c` on a memory, the argument `c` being the
window of the array from offset `offC`, with `k` iterations left and the next index
`j`: `c[j]` is read from the array when its iteration starts. -/
def setLoopIn (offC : Nat) : Nat → Nat → CallMemory → Option CallMemory
  | 0, _, m => some m
  | k + 1, j, m =>
    match m.arr[offC + j]? with
    | none => none
    | some new =>
      match setOneIn m new with
      | none => none
      | some m' => setLoopIn offC k (j + 1) m'

/-- The call `s.SetConditions(c...)` on a memory, `c` being the window of `lenC`
elements of the array from offset `offC`. -/
def CallMemory.SetConditions (m : CallMemory) (offC lenC : Nat) : Option CallMemory :=
  setLoopIn offC lenC 0 m

/-- SetConditions sets the supplied conditions, replacing any existing conditions of
the same type. The result is the state of the receiver after the call. The supplied
conditions are held in an array of their own, which the receiver does not share: it is
the call on the memory made of that array and of the receiver. `CallMemory.SetConditions`
is the call on an array that the receiver may share. -/
def ConditionedStatus.SetConditions (s : ConditionedStatus) (c : List Condition) :
    Option ConditionedStatus :=
  (CallMemory.SetConditions { arr := c, recv := Receiver.own s.Conditions } 0 c.length).map
    (fun m => { Conditions := m.conditions })

/-- NewConditionedStatus returns a status with the supplied conditions set. -/
def NewConditionedStatus (c : List Condition) : Option ConditionedStatus :=
  ConditionedStatus.SetConditions { Conditions := [] } c

/-- The contract of Go's `sort.Slice` for the comparison
`func(i, j) bool { return x[i].Type < x[j].Type }`: a deterministic reordering of the
slice after which no element is followed by one of a smaller type. The sort need not
be stable, so nothing is said about the order of conditions of the same type. -/
structure SliceSorter where
  /-- The content of the slice after the call. -/
  sort : List Condition → List Condition
  /-- The slice is reordered: nothing is added, dropped or changed. -/
  perm : ∀ l, (sort l).Perm l
  /-- Afterwards no element is less than an element before it. -/
  sorted : ∀ l, (sort l).Pairwise (fun a b => ¬ b.Typ < a.Typ)

/-- The loop `for i := range sc { if !sc[i].Equal(oc[i]) { return false } }` with `k`
iterations left and the next index `i`; `oc[i]` panics when `i` is out of range. -/
def compareLoop (sc oc : List Condition) : Nat → Nat → Option Bool
  | 0, _ => some true
  | k + 1, i =>
    match sc[i]?, oc[i]? with
    | some a, some b => if !a.Equal b then some false else compareLoop sc oc k (i + 1)
    | _, _ => none

/-- Equal returns true if the status is identical to the supplied status, ignoring
the LastTransitionTimes and the order of the statuses. Both sides are copied before
they are sorted, so neither receiver is written. -/
def ConditionedStatus.Equal (srt : SliceSorter) (s other : Option ConditionedStatus) :
    Option Bool :=
  match s, other with
  | some s, some other =>
    if other.Conditions.length ≠ s.Conditions.length then some false
    else
      let sc := srt.sort s.Conditions
      let oc := srt.sort other.Conditions
      compareLoop sc oc sc.length 0
  | s, other => some (s.isNone && other.isNone)

/-- Insertion of a condition into a slice sorted by type: it moves past the
conditions of a smaller type only, as the inner loop of Go's insertion sort does. -/
def insertByType (c : Condition) : List Condition → List Condition
  | [] => [c]
  | d :: rest => if d.Typ < c.Typ then d :: insertByType c rest else c :: d :: rest

/-- Insertion sort by type, the algorithm Go's `sort.Slice` runs on short slices. -/
def insertionSortByType : List Condition → List Condition
  | [] => []
  | c :: rest => insertByType c (insertionSortByType rest)

/-- What one scan of `SetConditions` does to a stored condition: a condition of the
type of `new` that is not `Equal` to it is overwritten by `new`. -/
def overwrite (new existing : Condition) : Condition :=
  if existing.Typ = new.Typ ∧ existing.Equal new = false then new else existing

/-- The types of the stored conditions, in order. -/
def typesOf (conds : List Condition) : List ConditionType :=
  conds.map (fun c => c.Typ)

/-- At most one condition per type is stored. -/
def UniqueTypes (s : ConditionedStatus) : Prop :=
  (typesOf s.Conditions).Nodup

instance (s : ConditionedStatus) : Decidable (UniqueTypes s) := by
  unfold UniqueTypes; infer_instance


/-- A sequence of `SetConditions` calls on one receiver, each call with its own list
of conditions; a panic of one call ends the run. -/
def setConditionsSeq (s : Option ConditionedStatus) (calls : List (List Condition)) :
    Option ConditionedStatus :=
  calls.foldl (fun st cs => st.bind (fun r => r.SetConditions cs)) s

/-- The last of the supplied conditions that has type `T`, if any. -/
def lastOfType (T : ConditionType) (cs : List Condition) : Option Condition :=
  (cs.filter (fun c => decide (c.Typ = T))).getLast?

/-- The placeholder `Condition{Type: ct, Status: corev1.ConditionUnknown}`: the fields
that the literal leaves out hold their zero values. -/
def unknownCondition (ct : ConditionType) : Condition :=
  { Typ := ct, Status := "Unknown", LastTransitionTime := 0, Reason := "", Message := "" }

/-- Element-wise comparison with `Condition.Equal` of two slices of one length. -/
def allEqual : List Condition → List Condition → Bool
  | a :: as, b :: bs => a.Equal b && allEqual as bs
  | _, _ => true

/-- A sample condition: Ready is True, stamped 1. -/
def sampleReady : Condition :=
  { Typ := "Ready", Status := "True", LastTransitionTime := 1, Reason := "Available",
    Message := "" }

/-- A sample condition: Ready is False, stamped 2. -/
def sampleNotReady : Condition :=
  { Typ := "Ready", Status := "False", LastTransitionTime := 2, Reason := "Unavailable",
    Message := "" }

/-- A sample condition: Synced is True, stamped 3. -/
def sampleSynced : Condition :=
  { Typ := "Synced", Status := "True", LastTransitionTime := 3, Reason := "Success",
    Message := "" }

/-- A sample condition: Ready is True as in `sampleReady`, stamped 9. -/
def sampleReadyLater : Condition :=
  { Typ := "Ready", Status := "True", LastTransitionTime := 9, Reason := "Available",
    Message := "" }

/-- The reason of a resource that is ready. -/
def ReasonAvailable : ConditionReason := "Resource is available for use"

/-- The reason of a resource that is not ready. -/
def ReasonUnavailable : ConditionReason := "Resource is not available for use"

/-- Matches returns true if the condition is identical to the supplied condition,
ignoring the LastTransitionTime and Message. -/
def Condition.Matches (c other : Condition) : Bool :=
  decide (c.Typ = other.Typ) &&
    decide (c.Status = other.Status) &&
    decide (c.Reason = other.Reason)

/-- The Unicode tables that Go's `unicode` package consults for runes above U+007F.
Below that bound `strings.Title` decides by explicit comparisons, which are embedded
as they are written; the tables themselves are a parameter. -/
structure RuneTables where
  /-- The predicate `unicode.IsLetter`. -/
  isLetter : Char → Bool
  /-- The predicate `unicode.IsDigit`. -/
  isDigit : Char → Bool
  /-- The predicate `unicode.IsSpace`. -/
  isSpace : Char → Bool
  /-- The mapping `unicode.To(unicode.TitleCase, r)`. -/
  toTitle : Char → Char

/-- The function `isSeparator` of Go's `strings` package: ASCII alphanumerics and the
underscore are not separators, every other ASCII rune is; above ASCII, letters and
digits are not separators and spaces are. -/
def isSeparator (u : RuneTables) (r : Char) : Bool :=
  if r.toNat ≤ 0x7F then
    if '0' ≤ r ∧ r ≤ '9' then false
    else if 'a' ≤ r ∧ r ≤ 'z' then false
    else if 'A' ≤ r ∧ r ≤ 'Z' then false
    else if r = '_' then false
    else true
  else if u.isLetter r || u.isDigit r then false
  else u.isSpace r

/-- The function `unicode.ToTitle`: an ASCII lower-case letter loses `'a' - 'A'`,
every other ASCII rune is kept, and the tables decide above ASCII. -/
def toTitle (u : RuneTables) (r : Char) : Char :=
  if r.toNat ≤ 0x7F then
    if 'a' ≤ r ∧ r ≤ 'z' then Char.ofNat (r.toNat - 32) else r
  else u.toTitle r

/-- The closure that `strings.Title` passes to `strings.Map`, run over the runes of
the string: `prev` is the rune seen before, and a rune that follows a separator is
mapped to title case. -/
def titleFrom (u : RuneTables) : Char → List Char → List Char
  | _, [] => []
  | prev, r :: rest =>
    (if isSeparator u prev then toTitle u r else r) :: titleFrom u r rest

/-- The function `strings.Title`, on a string of valid UTF-8: the closure starts with
`prev` a space. -/
def Title (u : RuneTables) (s : String) : String :=
  String.mk (titleFrom u ' ' s.data)

/-- The search of `strings.SplitN(s, " ", 2)` for the first space: the runes before
it and the runes after it, or nothing when there is no space. -/
def cutAtSpace : List Char → Option (List Char × List Char)
  | [] => none
  | r :: rest =>
    if r = ' ' then some ([], rest)
    else (cutAtSpace rest).map (fun p => (r :: p.1, p.2))

/-- The call `strings.SplitN(s, " ", 2)`: the string itself when it has no space,
otherwise the text before the first space and the text after it. -/
def SplitN2 (s : String) : List String :=
  match cutAtSpace s.data with
  | none => [s]
  | some (a, b) => [String.mk a, String.mk b]

/-- The function `strings.Join`. -/
def Join : List String → String → String
  | [], _ => ""
  | [a], _ => a
  | a :: rest, sep => a ++ sep ++ Join rest sep

/-- Capitalize uppercases the first word in the string. -/
def Capitalize (u : RuneTables) (s : String) : String :=
  match SplitN2 s with
  | first :: second :: _ => Join [Title u first, second] " "
  | _ => Title u s

/-- WithMessage returns a condition by adding the provided message to the existing
condition. The receiver is a value: the caller's condition is not written. -/
def Condition.WithMessage (u : RuneTables) (c : Condition) (msg : String) : Condition :=
  { c with Message := Capitalize u msg }

/-- WithMessagef returns a condition by adding the provided message to the existing
condition; `sprintf` is `fmt.Sprintf`, a parameter, and `a` its variadic arguments. -/
def Condition.WithMessagef {α : Type} (u : RuneTables) (sprintf : String → List α → String)
    (c : Condition) (msg : String) (a : List α) : Condition :=
  { c with Message := sprintf (Capitalize u msg) a }

/-- Available returns a condition that indicates the resource is currently observed
to be available for use; `now` is the reading `metav1.Now()` of the clock. -/
def Available (now : Time) : Condition :=
  { Typ := TypeReady, Status := ConditionTrue, LastTransitionTime := now,
    Reason := ReasonAvailable, Message := "" }

/-- Unavailable returns a condition that indicates the resource is not currently
available for use; `now` is the reading `metav1.Now()` of the clock. -/
def Unavailable (now : Time) : Condition :=
  { Typ := TypeReady, Status := ConditionFalse, LastTransitionTime := now,
    Reason := ReasonUnavailable, Message := "" }

/-- Rune tables that know no letter, digit, space or case mapping above ASCII; used
to evaluate `Title` on ASCII strings, on which the tables are never consulted. -/
def asciiTables : RuneTables :=
  { isLetter := fun _ => false, isDigit := fun _ => false, isSpace := fun _ => false,
    toTitle := fun r => r }

/-- What a whole `SetConditions` call does to one stored condition: the supplied
conditions overwrite it one after the other. -/
def settle (cs : List Condition) (e : Condition) : Condition :=
  cs.foldl (fun cur c => overwrite c cur) e

/-- The types that a `SetConditions` call appends, in the order of their first
occurrence in the supplied conditions; `seen` are the types stored so far. -/
def newTypes (seen : List ConditionType) : List Condition → List ConditionType
  | [] => []
  | c :: cs =>
    if c.Typ ∈ seen then newTypes seen cs else c.Typ :: newTypes (seen ++ [c.Typ]) cs

/-- The runes of a string before its first space. -/
def firstWord (l : List Char) : List Char :=
  l.takeWhile (fun r => !decide (r = ' '))

/-- The runes of a string from its first space on, the space included; empty when
the string has no space. -/
def fromSpace (l : List Char) : List Char :=
  l.dropWhile (fun r => !decide (r = ' '))

/-- The runes of a string, the first of them mapped by `f`. -/
def mapFirst (f : Char → Char) : List Char → List Char
  | [] => []
  | x :: rest => f x :: rest

/-! ## The insertion sort meets the contract of `sort.Slice` -/

theorem insertByType_perm (c : Condition) (l : List Condition) :
    (insertByType c l).Perm (c :: l) := by
  induction l with
  | nil => simp [insertByType]
  | cons d rest ih =>
    unfold insertByType
    split
    · exact (List.Perm.cons d ih).trans (List.Perm.swap c d rest)
    · exact List.Perm.refl _

theorem insertionSortByType_perm (l : List Condition) : (insertionSortByType l).Perm l := by
  induction l with
  | nil => simp [insertionSortByType]
  | cons c rest ih =>
    unfold insertionSortByType
    exact (insertByType_perm c _).trans (List.Perm.cons c ih)

theorem insertByType_sorted (c : Condition) (l : List Condition)
    (h : l.Pairwise (fun a b => ¬ b.Typ < a.Typ)) :
    (insertByType c l).Pairwise (fun a b => ¬ b.Typ < a.Typ) := by
  induction l with
  | nil => simp [insertByType]
  | cons d rest ih =>
    unfold insertByType
    rw [List.pairwise_cons] at h
    split
    · rename_i hlt
      rw [List.pairwise_cons]
      refine ⟨?_, ih h.2⟩
      intro b hb
      rcases List.mem_cons.mp ((insertByType_perm c rest).mem_iff.mp hb) with hb | hb
      · subst hb; exact not_lt.mpr (le_of_lt hlt)
      · exact h.1 b hb
    · rename_i hge
      rw [List.pairwise_cons]
      refine ⟨?_, List.pairwise_cons.mpr h⟩
      intro b hb
      rcases List.mem_cons.mp hb with hb | hb
      · subst hb; exact hge
      · exact not_lt.mpr (le_trans (not_lt.mp hge) (not_lt.mp (h.1 b hb)))

theorem insertionSortByType_sorted (l : List Condition) :
    (insertionSortByType l).Pairwise (fun a b => ¬ b.Typ < a.Typ) := by
  induction l with
  | nil => simp [insertionSortByType]
  | cons c rest ih =>
    unfold insertionSortByType
    exact insertByType_sorted c _ ih

/-- Insertion sort by type as an instance of the `sort.Slice` contract. -/
def insertionSorter : SliceSorter where
  sort := insertionSortByType
  perm := insertionSortByType_perm
  sorted := insertionSortByType_sorted

/-! ## The loops of `SetConditions` -/

theorem scanExisting_eq (new : Condition) (suf : List Condition) :
    ∀ (pre : List Condition) (ex : Bool),
      scanExisting new suf.length pre.length (pre ++ suf) ex =
        some (pre ++ suf.map (overwrite new),
          ex || suf.any (fun e => decide (e.Typ = new.Typ))) := by
  induction suf with
  | nil => intro pre ex; simp [scanExisting]
  | cons e suf ih =>
    intro pre ex
    have hget : (pre ++ e :: suf)[pre.length]? = some e := by
      rw [List.getElem?_append_right (le_refl _)]; simp
    simp only [List.length_cons, scanExisting, hget]
    by_cases hT : e.Typ = new.Typ
    · by_cases hE : e.Equal new = true
      · have h := ih (pre ++ [e]) true
        simp only [List.length_append, List.length_singleton, List.append_assoc,
          List.singleton_append] at h
        simp [hT, hE, h, overwrite]
      · have hw : writeAt (pre ++ e :: suf) pre.length new = some (pre ++ new :: suf) := by
          simp [writeAt]
        have h := ih (pre ++ [new]) true
        simp only [List.length_append, List.length_singleton, List.append_assoc,
          List.singleton_append] at h
        simp [hT, hE, hw, h, overwrite]
    · have h := ih (pre ++ [e]) ex
      simp only [List.length_append, List.length_singleton, List.append_assoc,
        List.singleton_append] at h
      simp [hT, h, overwrite]


theorem Condition.equal_refl (c : Condition) : c.Equal c = true := by
  simp [Condition.Equal]

theorem Condition.equal_comm (c o : Condition) : c.Equal o = o.Equal c := by
  simp only [Condition.Equal, eq_comm]

theorem Condition.equal_trans (a b c : Condition) (hab : a.Equal b = true)
    (hbc : b.Equal c = true) : a.Equal c = true := by
  simp only [Condition.Equal, Bool.and_eq_true, decide_eq_true_eq] at *
  obtain ⟨⟨⟨h1, h2⟩, h3⟩, h4⟩ := hab
  obtain ⟨⟨⟨g1, g2⟩, g3⟩, g4⟩ := hbc
  exact ⟨⟨⟨h1.trans g1, h2.trans g2⟩, h3.trans g3⟩, h4.trans g4⟩

theorem Condition.equal_typ (a b : Condition) (h : a.Equal b = true) : a.Typ = b.Typ := by
  simp only [Condition.Equal, Bool.and_eq_true, decide_eq_true_eq] at h
  exact h.1.1.1

theorem overwrite_typ (new e : Condition) : (overwrite new e).Typ = e.Typ := by
  unfold overwrite
  split
  · rename_i h; exact h.1.symm
  · rfl

theorem overwrite_equal (new e : Condition) (h : e.Typ = new.Typ) :
    (overwrite new e).Equal new = true := by
  unfold overwrite
  by_cases hE : e.Equal new = true
  · simp [hE]
  · have hF : e.Equal new = false := by simpa using hE
    rw [if_pos ⟨h, hF⟩]
    exact Condition.equal_refl new

theorem overwrite_other (new e : Condition) (h : e.Typ ≠ new.Typ) : overwrite new e = e := by
  simp [overwrite, h]

theorem typesOf_map_overwrite (new : Condition) (conds : List Condition) :
    typesOf (conds.map (overwrite new)) = typesOf conds := by
  simp [typesOf, List.map_map, Function.comp_def, overwrite_typ]

theorem map_overwrite_of_absent (new : Condition) (conds : List Condition)
    (h : new.Typ ∉ typesOf conds) : conds.map (overwrite new) = conds := by
  induction conds with
  | nil => rfl
  | cons e rest ih =>
    simp only [typesOf, List.map_cons, List.mem_cons, not_or] at h
    have hrest : new.Typ ∉ typesOf rest := h.2
    rw [List.map_cons, ih hrest, overwrite_other new e (fun hh => h.1 hh.symm)]

theorem any_typ_iff (new : Condition) (conds : List Condition) :
    conds.any (fun e => decide (e.Typ = new.Typ)) = true ↔ new.Typ ∈ typesOf conds := by
  simp only [typesOf, List.any_eq_true, decide_eq_true_eq, List.mem_map]

/-- One iteration of the outer loop never panics: it overwrites in place when the type
is stored and appends otherwise. -/
theorem setOne_eq (conds : List Condition) (new : Condition) :
    setOne conds new =
      some (if new.Typ ∈ typesOf conds then conds.map (overwrite new) else conds ++ [new]) := by
  have h := scanExisting_eq new conds [] false
  simp only [List.length_nil, List.nil_append, Bool.false_or] at h
  unfold setOne
  rw [h]
  by_cases hm : new.Typ ∈ typesOf conds
  · have ha := (any_typ_iff new conds).mpr hm
    simp [hm, ha]
  · have ha : conds.any (fun e => decide (e.Typ = new.Typ)) = false := by
      rw [← Bool.not_eq_true]; exact fun hh => hm ((any_typ_iff new conds).mp hh)
    simp only [ha, hm, if_false, Bool.not_false, if_true, map_overwrite_of_absent new conds hm]

theorem setLoop_append (xs ys : List Condition) :
    ∀ conds, setLoop conds (xs ++ ys) = (setLoop conds xs).bind (fun r => setLoop r ys) := by
  induction xs with
  | nil => intro conds; simp [setLoop]
  | cons x xs ih =>
    intro conds
    simp only [List.cons_append, setLoop, setOne_eq]
    exact ih _

theorem setLoop_total (cs : List Condition) : ∀ conds, ∃ r, setLoop conds cs = some r := by
  induction cs with
  | nil => intro conds; exact ⟨conds, rfl⟩
  | cons c cs ih =>
    intro conds
    simp only [setLoop, setOne_eq]
    exact ih _

theorem setOne_nodup (conds r : List Condition) (new : Condition)
    (hn : (typesOf conds).Nodup) (h : setOne conds new = some r) : (typesOf r).Nodup := by
  rw [setOne_eq] at h
  injection h with h
  subst h
  split
  · rw [typesOf_map_overwrite]; exact hn
  · rename_i hm
    simp only [typesOf, List.map_append, List.map_cons, List.map_nil]
    exact List.Nodup.append hn (List.nodup_singleton _) (by
      simpa [List.disjoint_singleton, typesOf] using hm)

theorem setLoop_nodup (cs : List Condition) :
    ∀ conds r, (typesOf conds).Nodup → setLoop conds cs = some r → (typesOf r).Nodup := by
  induction cs with
  | nil => intro conds r hn h; simp only [setLoop, Option.some.injEq] at h; exact h ▸ hn
  | cons c cs ih =>
    intro conds r hn h
    simp only [setLoop] at h
    cases hs : setOne conds c with
    | none => simp [hs] at h
    | some mid =>
      simp only [hs] at h
      exact ih mid r (setOne_nodup conds mid c hn hs) h


theorem setLoop_singleton (conds : List Condition) (c : Condition) :
    setLoop conds [c] = setOne conds c := by
  simp only [setLoop, setOne_eq]

theorem setLoop_concat (conds xs : List Condition) (c : Condition) :
    setLoop conds (xs ++ [c]) = (setLoop conds xs).bind (fun r => setOne r c) := by
  rw [setLoop_append]
  congr 1
  funext r
  exact setLoop_singleton r c

/-! ## The loop of `GetCondition` -/

theorem getLoop_eq_find (ct : ConditionType) (conds : List Condition) :
    getLoop ct conds =
      match conds.find? (fun c => decide (c.Typ = ct)) with
      | some c => c
      | none => unknownCondition ct := by
  induction conds with
  | nil => rfl
  | cons c rest ih =>
    by_cases h : c.Typ = ct
    · simp [getLoop, h]
    · simp only [getLoop, h, if_false, List.find?_cons, decide_False]
      exact ih

theorem getLoop_map_overwrite_same (new : Condition) (conds : List Condition)
    (h : new.Typ ∈ typesOf conds) :
    (getLoop new.Typ (conds.map (overwrite new))).Equal new = true := by
  induction conds with
  | nil => simp [typesOf] at h
  | cons e rest ih =>
    by_cases hT : e.Typ = new.Typ
    · simp only [List.map_cons, getLoop, overwrite_typ, hT, if_true]
      exact overwrite_equal new e hT
    · have hrest : new.Typ ∈ typesOf rest := by
        simp only [typesOf, List.map_cons, List.mem_cons] at h
        rcases h with h | h
        · exact absurd h.symm hT
        · exact h
      simp only [List.map_cons, getLoop, overwrite_typ, hT, if_false]
      exact ih hrest

theorem getLoop_append_absent (T : ConditionType) (conds tail : List Condition)
    (h : T ∉ typesOf conds) : getLoop T (conds ++ tail) = getLoop T tail := by
  induction conds with
  | nil => rfl
  | cons e rest ih =>
    simp only [typesOf, List.map_cons, List.mem_cons, not_or] at h
    have hne : ¬ e.Typ = T := fun hh => h.1 hh.symm
    simp only [List.cons_append, getLoop, hne, if_false]
    exact ih h.2

theorem getLoop_map_overwrite_other (new : Condition) (T : ConditionType)
    (conds : List Condition) (h : new.Typ ≠ T) :
    getLoop T (conds.map (overwrite new)) = getLoop T conds := by
  induction conds with
  | nil => rfl
  | cons e rest ih =>
    by_cases hT : e.Typ = T
    · have hne : e.Typ ≠ new.Typ := fun hh => h (hh.symm.trans hT)
      simp [getLoop, overwrite_other new e hne, hT]
    · simp only [List.map_cons, getLoop, overwrite_typ, hT, if_false]
      exact ih

theorem getLoop_append_other (new : Condition) (T : ConditionType)
    (conds : List Condition) (h : new.Typ ≠ T) :
    getLoop T (conds ++ [new]) = getLoop T conds := by
  induction conds with
  | nil => simp [getLoop, h]
  | cons e rest ih =>
    by_cases hT : e.Typ = T
    · simp [getLoop, hT]
    · simp only [List.cons_append, getLoop, hT, if_false]
      exact ih

/-- After one iteration of the outer loop the lookup of the type of `new` yields a
condition `Equal` to `new`. -/
theorem getLoop_setOne_same (conds r : List Condition) (new : Condition)
    (h : setOne conds new = some r) : (getLoop new.Typ r).Equal new = true := by
  rw [setOne_eq] at h
  injection h with h
  subst h
  split
  · rename_i hm; exact getLoop_map_overwrite_same new conds hm
  · rename_i hm
    rw [getLoop_append_absent new.Typ conds [new] hm]
    simp [getLoop, Condition.equal_refl]

/-- One iteration of the outer loop leaves the lookup of every other type as it was. -/
theorem getLoop_setOne_other (conds r : List Condition) (new : Condition)
    (T : ConditionType) (hT : new.Typ ≠ T) (h : setOne conds new = some r) :
    getLoop T r = getLoop T conds := by
  rw [setOne_eq] at h
  injection h with h
  subst h
  split
  · exact getLoop_map_overwrite_other new T conds hT
  · exact getLoop_append_other new T conds hT

theorem lastOfType_concat (T : ConditionType) (xs : List Condition) (c : Condition) :
    lastOfType T (xs ++ [c]) = if c.Typ = T then some c else lastOfType T xs := by
  unfold lastOfType
  by_cases h : c.Typ = T
  · simp [List.filter_append, h]
  · simp [List.filter_append, h]

theorem getLoop_setLoop_last (T : ConditionType) (cs : List Condition) :
    ∀ (conds r : List Condition) (last : Condition), lastOfType T cs = some last →
      setLoop conds cs = some r → (getLoop T r).Equal last = true := by
  induction cs using List.reverseRecOn with
  | nil => intro conds r last hl; simp [lastOfType] at hl
  | append_singleton xs c ih =>
    intro conds r last hl hr
    rw [setLoop_concat] at hr
    obtain ⟨mid, hmid⟩ := setLoop_total xs conds
    rw [hmid, Option.some_bind] at hr
    rw [lastOfType_concat] at hl
    by_cases hT : c.Typ = T
    · rw [if_pos hT] at hl
      injection hl with hl
      subst hl
      subst hT
      exact getLoop_setOne_same mid r c hr
    · rw [if_neg hT] at hl
      rw [getLoop_setOne_other mid r c T hT hr]
      exact ih conds mid last hl hmid


/-! ## In-place behaviour of one scan under the one-condition-per-type invariant -/

theorem eq_of_typ_eq (conds : List Condition) (hn : (typesOf conds).Nodup)
    (a b : Condition) (ha : a ∈ conds) (hb : b ∈ conds) (h : a.Typ = b.Typ) : a = b :=
  List.inj_on_of_nodup_map hn ha hb h

theorem map_overwrite_of_equal (new : Condition) (conds : List Condition)
    (h : ∀ e ∈ conds, e.Typ = new.Typ → e.Equal new = true) :
    conds.map (overwrite new) = conds := by
  induction conds with
  | nil => rfl
  | cons e rest ih =>
    have hrest : ∀ x ∈ rest, x.Typ = new.Typ → x.Equal new = true :=
      fun x hx => h x (List.mem_cons_of_mem e hx)
    rw [List.map_cons, ih hrest]
    have he : overwrite new e = e := by
      unfold overwrite
      by_cases hT : e.Typ = new.Typ
      · simp [h e (List.mem_cons_self e rest) hT]
      · simp [hT]
    rw [he]

theorem setLoop_of_equal (cs : List Condition) (conds : List Condition)
    (hn : (typesOf conds).Nodup)
    (h : ∀ c ∈ cs, ∃ e ∈ conds, e.Typ = c.Typ ∧ e.Equal c = true) :
    setLoop conds cs = some conds := by
  induction cs with
  | nil => rfl
  | cons c cs ih =>
    obtain ⟨e, he, hT, hE⟩ := h c (List.mem_cons_self c cs)
    have hm : c.Typ ∈ typesOf conds := List.mem_map.mpr ⟨e, he, hT⟩
    have hmap : conds.map (overwrite c) = conds := by
      apply map_overwrite_of_equal
      intro x hx hxT
      have hxe : x = e := eq_of_typ_eq conds hn x e hx he (hxT.trans hT.symm)
      rw [hxe]; exact hE
    simp only [setLoop, setOne_eq, if_pos hm, hmap]
    exact ih (fun x hx => h x (List.mem_cons_of_mem c hx))

theorem map_overwrite_eq_set (new e : Condition) (conds : List Condition) (i : Nat)
    (hn : (typesOf conds).Nodup) (hi : conds[i]? = some e) (hT : e.Typ = new.Typ)
    (hE : e.Equal new = false) : conds.map (overwrite new) = conds.set i new := by
  apply List.ext_getElem?
  intro j
  rw [List.getElem?_map, List.getElem?_set]
  by_cases hij : i = j
  · subst hij
    have hlt : i < conds.length := by
      by_contra hge
      rw [List.getElem?_eq_none (not_lt.mp hge)] at hi
      exact Option.noConfusion hi
    simp [hi, hlt, overwrite, hT, hE]
  · rw [if_neg hij]
    cases hj : conds[j]? with
    | none => rfl
    | some x =>
      have hne : x.Typ ≠ new.Typ := by
        intro hx
        have hil : i < (typesOf conds).length := by
          by_contra hge
          have : i ≥ conds.length := by simpa [typesOf] using hge
          rw [List.getElem?_eq_none this] at hi
          exact Option.noConfusion hi
        have hjl : j < (typesOf conds).length := by
          by_contra hge
          have : j ≥ conds.length := by simpa [typesOf] using hge
          rw [List.getElem?_eq_none this] at hj
          exact Option.noConfusion hj
        have hti : (typesOf conds)[i]? = some e.Typ := by simp [typesOf, hi]
        have htj : (typesOf conds)[j]? = some x.Typ := by simp [typesOf, hj]
        rw [List.getElem?_eq_getElem hil] at hti
        rw [List.getElem?_eq_getElem hjl] at htj
        injection hti with hti
        injection htj with htj
        exact hij ((hn.getElem_inj_iff).mp (by rw [hti, htj, hT, hx]))
      simp [overwrite_other new x hne]

/-! ## The comparison loop of `ConditionedStatus.Equal` -/

theorem compareLoop_eq : ∀ (sc oc ps po : List Condition),
    sc.length = oc.length → ps.length = po.length →
    compareLoop (ps ++ sc) (po ++ oc) sc.length ps.length = some (allEqual sc oc) := by
  intro sc
  induction sc with
  | nil =>
    intro oc ps po h _
    cases oc with
    | nil => simp [compareLoop, allEqual]
    | cons b oc => simp at h
  | cons a sc ih =>
    intro oc ps po h hp
    cases oc with
    | nil => simp at h
    | cons b oc =>
      have hlen : sc.length = oc.length := by simpa using h
      have hsa : (ps ++ a :: sc)[ps.length]? = some a := by
        rw [List.getElem?_append_right (le_refl _)]; simp
      have hob : (po ++ b :: oc)[ps.length]? = some b := by
        rw [hp, List.getElem?_append_right (le_refl _)]; simp
      simp only [List.length_cons, compareLoop, hsa, hob, allEqual]
      by_cases hE : a.Equal b = true
      · have h2 := ih oc (ps ++ [a]) (po ++ [b]) hlen (by simp [hp])
        simp only [List.length_append, List.length_singleton, List.append_assoc,
          List.singleton_append] at h2
        simp [hE, h2]
      · simp [hE]

/-- On two non-nil statuses `Equal` never panics: it is the length test followed by the
element-wise comparison of the sorted copies. -/
theorem equal_some_some (srt : SliceSorter) (s o : ConditionedStatus) :
    ConditionedStatus.Equal srt (some s) (some o) =
      some (decide (s.Conditions.length = o.Conditions.length) &&
        allEqual (srt.sort s.Conditions) (srt.sort o.Conditions)) := by
  unfold ConditionedStatus.Equal
  by_cases h : o.Conditions.length = s.Conditions.length
  · have hl : (srt.sort s.Conditions).length = (srt.sort o.Conditions).length := by
      rw [(srt.perm s.Conditions).length_eq, (srt.perm o.Conditions).length_eq, h]
    have hc := compareLoop_eq (srt.sort s.Conditions) (srt.sort o.Conditions) [] [] hl rfl
    simp only [List.nil_append, List.length_nil] at hc
    simp [h, hc]
  · simp [h, Ne.symm h]

theorem allEqual_refl (xs : List Condition) : allEqual xs xs = true := by
  induction xs with
  | nil => rfl
  | cons a xs ih => simp [allEqual, Condition.equal_refl, ih]

theorem allEqual_comm : ∀ (xs ys : List Condition), allEqual xs ys = allEqual ys xs := by
  intro xs
  induction xs with
  | nil => intro ys; cases ys <;> rfl
  | cons a xs ih =>
    intro ys
    cases ys with
    | nil => rfl
    | cons b ys => simp only [allEqual, Condition.equal_comm a b, ih ys]

theorem allEqual_iff_forall₂ : ∀ (xs ys : List Condition), xs.length = ys.length →
    (allEqual xs ys = true ↔ List.Forall₂ (fun a b => a.Equal b = true) xs ys) := by
  intro xs
  induction xs with
  | nil =>
    intro ys h
    cases ys with
    | nil => simp [allEqual]
    | cons b ys => simp at h
  | cons a xs ih =>
    intro ys h
    cases ys with
    | nil => simp at h
    | cons b ys =>
      have hl : xs.length = ys.length := by simpa using h
      simp only [allEqual, Bool.and_eq_true, List.forall₂_cons, ih ys hl]

theorem forall₂_exists_right {R : Condition → Condition → Prop} :
    ∀ {xs ys : List Condition}, List.Forall₂ R xs ys → ∀ x ∈ xs, ∃ y ∈ ys, R x y := by
  intro xs ys h
  induction h with
  | nil => intro x hx; simp at hx
  | cons hab _ ih =>
    intro x hx
    rcases List.mem_cons.mp hx with hx | hx
    · subst hx; exact ⟨_, List.mem_cons_self _ _, hab⟩
    · obtain ⟨y, hy, hR⟩ := ih x hx
      exact ⟨y, List.mem_cons_of_mem _ hy, hR⟩

theorem forall₂_typesOf_eq : ∀ {xs ys : List Condition},
    List.Forall₂ (fun a b => a.Equal b = true) xs ys → typesOf xs = typesOf ys := by
  intro xs ys h
  induction h with
  | nil => rfl
  | cons hab _ ih =>
    simp only [typesOf, List.map_cons, List.cons.injEq]
    exact ⟨Condition.equal_typ _ _ hab, ih⟩

/-- Two slices with the same sequence of pairwise distinct types, in which every
condition of the first has an `Equal` partner somewhere in the second, are `Equal`
element by element. -/
theorem forall₂_of_typesOf_eq : ∀ (xs ys : List Condition),
    typesOf xs = typesOf ys → (typesOf ys).Nodup →
    (∀ x ∈ xs, ∃ y ∈ ys, x.Equal y = true) →
    List.Forall₂ (fun a b => a.Equal b = true) xs ys := by
  intro xs
  induction xs with
  | nil =>
    intro ys ht _ _
    cases ys with
    | nil => exact List.Forall₂.nil
    | cons b ys => simp [typesOf] at ht
  | cons a xs ih =>
    intro ys ht hn hm
    cases ys with
    | nil => simp [typesOf] at ht
    | cons b ys =>
      simp only [typesOf, List.map_cons, List.cons.injEq] at ht
      have hn' : b.Typ ∉ typesOf ys ∧ (typesOf ys).Nodup := by
        simpa [typesOf, List.nodup_cons] using hn
      refine List.Forall₂.cons ?_ (ih ys ht.2 hn'.2 ?_)
      · obtain ⟨y, hy, hE⟩ := hm a (List.mem_cons_self a xs)
        rcases List.mem_cons.mp hy with hy | hy
        · rw [← hy]; exact hE
        · exfalso
          apply hn'.1
          have : y.Typ = b.Typ := (Condition.equal_typ _ _ hE).symm.trans ht.1
          rw [← this]
          exact List.mem_map.mpr ⟨y, hy, rfl⟩
      · intro x hx
        obtain ⟨y, hy, hE⟩ := hm x (List.mem_cons_of_mem a hx)
        rcases List.mem_cons.mp hy with hy | hy
        · exfalso
          apply hn'.1
          have hxb : x.Typ = b.Typ := by rw [← hy]; exact Condition.equal_typ _ _ hE
          have hxm : x.Typ ∈ typesOf xs := List.mem_map.mpr ⟨x, hx, rfl⟩
          have ht2 : typesOf xs = typesOf ys := ht.2
          rw [← hxb, ← ht2]
          exact hxm
        · exact ⟨y, hy, hE⟩

theorem typesOf_sort_perm (srt : SliceSorter) (l : List Condition) :
    (typesOf (srt.sort l)).Perm (typesOf l) :=
  (srt.perm l).map _

theorem typesOf_sort_sorted (srt : SliceSorter) (l : List Condition) :
    (typesOf (srt.sort l)).Sorted (fun a b => a ≤ b) := by
  unfold typesOf List.Sorted
  rw [List.pairwise_map]
  exact (srt.sorted l).imp (fun h => not_lt.mp h)

/-- Sorting by type brings two slices that hold the same pairwise distinct types into
the same order of types. -/
theorem typesOf_sort_eq (srt : SliceSorter) (xs ys : List Condition)
    (hx : (typesOf xs).Nodup) (hl : xs.length = ys.length)
    (hsub : ∀ x ∈ xs, x.Typ ∈ typesOf ys) :
    typesOf (srt.sort xs) = typesOf (srt.sort ys) := by
  have hss : typesOf xs ⊆ typesOf ys := by
    intro t ht
    obtain ⟨x, hxm, hxt⟩ := List.mem_map.mp ht
    exact hxt ▸ hsub x hxm
  have hperm : (typesOf xs).Perm (typesOf ys) :=
    (List.subperm_of_subset hx hss).perm_of_length_le (by simp [typesOf, hl])
  have hp : (typesOf (srt.sort xs)).Perm (typesOf (srt.sort ys)) :=
    ((typesOf_sort_perm srt xs).trans hperm).trans (typesOf_sort_perm srt ys).symm
  exact List.eq_of_perm_of_sorted hp (typesOf_sort_sorted srt xs) (typesOf_sort_sorted srt ys)

/-- For two non-nil statuses with one condition per type, `Equal` is true exactly when
they hold the same number of conditions and every condition of the first has an
`Equal` partner in the second. -/
theorem equal_true_iff (srt : SliceSorter) (s o : ConditionedStatus)
    (ho : UniqueTypes o) (hs : UniqueTypes s) :
    ConditionedStatus.Equal srt (some s) (some o) = some true ↔
      s.Conditions.length = o.Conditions.length ∧
        ∀ c ∈ s.Conditions, ∃ d ∈ o.Conditions, c.Equal d = true := by
  rw [equal_some_some]
  simp only [Option.some.injEq, Bool.and_eq_true, decide_eq_true_eq]
  constructor
  · rintro ⟨hl, ha⟩
    refine ⟨hl, ?_⟩
    have hl2 : (srt.sort s.Conditions).length = (srt.sort o.Conditions).length := by
      rw [(srt.perm s.Conditions).length_eq, (srt.perm o.Conditions).length_eq, hl]
    have hf := (allEqual_iff_forall₂ _ _ hl2).mp ha
    intro c hc
    obtain ⟨d, hd, hE⟩ := forall₂_exists_right hf c ((srt.perm s.Conditions).mem_iff.mpr hc)
    exact ⟨d, (srt.perm o.Conditions).mem_iff.mp hd, hE⟩
  · rintro ⟨hl, hm⟩
    refine ⟨hl, ?_⟩
    have hl2 : (srt.sort s.Conditions).length = (srt.sort o.Conditions).length := by
      rw [(srt.perm s.Conditions).length_eq, (srt.perm o.Conditions).length_eq, hl]
    rw [allEqual_iff_forall₂ _ _ hl2]
    apply forall₂_of_typesOf_eq
    · apply typesOf_sort_eq srt s.Conditions o.Conditions hs hl
      intro x hx
      obtain ⟨d, hd, hE⟩ := hm x hx
      rw [Condition.equal_typ _ _ hE]
      exact List.mem_map.mpr ⟨d, hd, rfl⟩
    · exact ((typesOf_sort_perm srt o.Conditions).nodup_iff).mpr ho
    · intro x hx
      obtain ⟨d, hd, hE⟩ := hm x ((srt.perm s.Conditions).mem_iff.mp hx)
      exact ⟨d, (srt.perm o.Conditions).mem_iff.mpr hd, hE⟩

/-- Conditions of pairwise distinct types, none of them stored yet, are appended in
the order given. -/
theorem setLoop_of_fresh (cs : List Condition) :
    ∀ conds, (typesOf (conds ++ cs)).Nodup → setLoop conds cs = some (conds ++ cs) := by
  induction cs with
  | nil => intro conds _; simp [setLoop]
  | cons c cs ih =>
    intro conds hn
    have hc : c.Typ ∉ typesOf conds := by
      intro hmem
      have hn2 : (typesOf conds ++ (c.Typ :: typesOf cs)).Nodup := by
        simpa [typesOf] using hn
      exact (List.nodup_append.mp hn2).2.2 hmem (List.mem_cons_self _ _)
    simp only [setLoop, setOne_eq, if_neg hc]
    have := ih (conds ++ [c]) (by simpa using hn)
    simpa using this

/-! ## The call on a memory whose array the receiver does not share -/

theorem setLoopIn_own (cs2 : List Condition) :
    ∀ (front cs1 back conds : List Condition),
      setLoopIn front.length cs2.length cs1.length
          { arr := front ++ (cs1 ++ cs2) ++ back, recv := Receiver.own conds } =
        (setLoop conds cs2).map
          (fun r => { arr := front ++ (cs1 ++ cs2) ++ back, recv := Receiver.own r }) := by
  induction cs2 with
  | nil => intro front cs1 back conds; simp [setLoopIn, setLoop]
  | cons c cs2 ih =>
    intro front cs1 back conds
    have hget : (front ++ (cs1 ++ c :: cs2) ++ back)[front.length + cs1.length]? = some c := by
      have h1 : front ++ (cs1 ++ c :: cs2) ++ back = (front ++ cs1) ++ (c :: (cs2 ++ back)) := by
        simp
      rw [h1, List.getElem?_append_right (by simp)]
      simp
    simp only [List.length_cons, setLoopIn, hget, setOneIn, setLoop, setOne_eq,
      Option.map_some']
    have h := ih front (cs1 ++ [c]) back
      (if c.Typ ∈ typesOf conds then conds.map (overwrite c) else conds ++ [c])
    simp only [List.length_append, List.length_singleton, List.append_assoc,
      List.singleton_append] at h
    simp only [List.append_assoc]
    exact h

/-- The call with the argument in an array of its own is the outer loop on the values
of the argument. -/
theorem setConditions_eq_setLoop (s : ConditionedStatus) (cs : List Condition) :
    s.SetConditions cs = (setLoop s.Conditions cs).map ConditionedStatus.mk := by
  have h := setLoopIn_own cs [] [] [] s.Conditions
  simp only [List.length_nil, List.nil_append, List.append_nil] at h
  unfold ConditionedStatus.SetConditions CallMemory.SetConditions
  rw [h]
  cases setLoop s.Conditions cs with
  | none => rfl
  | some r => rfl

/-- When the receiver does not share the array of the argument, the call on the memory
is `ConditionedStatus.SetConditions` on the values of the argument, wherever they lie
in their array, and the array is left as it was. -/
theorem setConditions_own (s : ConditionedStatus) (front cs back : List Condition) :
    CallMemory.SetConditions
        { arr := front ++ cs ++ back, recv := Receiver.own s.Conditions }
        front.length cs.length =
      (s.SetConditions cs).map
        (fun r => { arr := front ++ cs ++ back, recv := Receiver.own r.Conditions }) := by
  have h := setLoopIn_own cs front [] back s.Conditions
  simp only [List.length_nil, List.nil_append] at h
  rw [setConditions_eq_setLoop]
  unfold CallMemory.SetConditions
  rw [h]
  cases setLoop s.Conditions cs with
  | none => rfl
  | some r => rfl

/-! ## Claims on `SetConditions` and `GetCondition` -/

/-- C1. `SetConditions` preserves the invariant that no two stored conditions share a
type, whatever the supplied list is; hence every status obtained from
`NewConditionedStatus` by a sequence of `SetConditions` calls holds at most one
condition per type. Each call returns without a panic. -/
theorem C1_setConditions_preserves_unique_types :
    (∀ (s : ConditionedStatus) (cs : List Condition), UniqueTypes s →
      ∃ r, s.SetConditions cs = some r ∧ UniqueTypes r) ∧
    (∀ (cs : List Condition) (calls : List (List Condition)),
      ∃ r, setConditionsSeq (NewConditionedStatus cs) calls = some r ∧ UniqueTypes r) := by
  have step : ∀ (s : ConditionedStatus) (cs : List Condition), UniqueTypes s →
      ∃ r, s.SetConditions cs = some r ∧ UniqueTypes r := by
    intro s cs hs
    obtain ⟨r, hr⟩ := setLoop_total cs s.Conditions
    refine ⟨⟨r⟩, ?_, ?_⟩
    · simp [setConditions_eq_setLoop, hr]
    · exact setLoop_nodup cs s.Conditions r hs hr
  refine ⟨step, ?_⟩
  intro cs calls
  have hseq : ∀ (calls : List (List Condition)) (s : ConditionedStatus), UniqueTypes s →
      ∃ r, setConditionsSeq (some s) calls = some r ∧ UniqueTypes r := by
    intro calls
    induction calls with
    | nil => intro s hs; exact ⟨s, rfl, hs⟩
    | cons c calls ih =>
      intro s hs
      obtain ⟨mid, hmid, hu⟩ := step s c hs
      have := ih mid hu
      simpa [setConditionsSeq, hmid] using this
  obtain ⟨s0, h0, hu0⟩ := step ⟨[]⟩ cs (by simp [UniqueTypes, typesOf])
  have h0' : NewConditionedStatus cs = some s0 := h0
  rw [h0']
  exact hseq calls s0 hu0

/-- C1 at a status holding Ready and Synced, set with two Ready conditions. -/
theorem C1_setConditions_preserves_unique_types_witness :
    UniqueTypes ⟨[sampleReady, sampleSynced]⟩ ∧
      ∃ r, ConditionedStatus.SetConditions ⟨[sampleReady, sampleSynced]⟩
        [sampleNotReady, sampleReadyLater] = some r ∧ UniqueTypes r :=
  ⟨by decide, C1_setConditions_preserves_unique_types.1 _ _ (by decide)⟩

/-- C2, as stated, fails when the argument shares its array with the receiver: with
`s.Conditions` the array holding Ready True then Ready False, the call
`s.SetConditions(s.Conditions...)` overwrites the second supplied element before it is
read and ends with Ready True twice, so that `GetCondition` of Ready is not `Equal` to
the last supplied condition, Ready False. -/
theorem C2_shared_array_counterexample :
    ∃ m, CallMemory.SetConditions
        { arr := [sampleReady, sampleNotReady], recv := Receiver.window 0 2 2 } 0 2 = some m ∧
      m.conditions = [sampleReady, sampleReady] ∧
      lastOfType "Ready" [sampleReady, sampleNotReady] = some sampleNotReady ∧
      (getLoop "Ready" m.conditions).Equal sampleNotReady = false :=
  ⟨{ arr := [sampleReady, sampleReady], recv := Receiver.window 0 2 2 },
    by decide, by decide, by decide, by decide⟩

/-- C2, amended. For every status `s`, every list `cs` held in an array that
`s.Conditions` does not share, and every type `T` that occurs in `cs`, the call
`SetConditions(cs...)` returns, leaves the array of `cs` as it was, and afterwards
`GetCondition(T)` is `Equal` to the last element of `cs` whose type is `T`. For
`cs = [c]` and `T = c.Type` this is: after `SetConditions(c)`, `GetCondition(c.Type)` is
`Equal` to `c`. -/
theorem C2_getCondition_after_setConditions (s : ConditionedStatus)
    (front cs back : List Condition) (T : ConditionType) (hT : T ∈ typesOf cs) :
    ∃ r last,
      CallMemory.SetConditions
          { arr := front ++ cs ++ back, recv := Receiver.own s.Conditions }
          front.length cs.length =
        some { arr := front ++ cs ++ back, recv := Receiver.own r.Conditions } ∧
      s.SetConditions cs = some r ∧ lastOfType T cs = some last ∧
      (r.GetCondition T).Equal last = true := by
  obtain ⟨r, hr⟩ := setLoop_total cs s.Conditions
  have hne : cs.filter (fun c => decide (c.Typ = T)) ≠ [] := by
    obtain ⟨c, hc, hcT⟩ := List.mem_map.mp hT
    exact List.ne_nil_of_mem (List.mem_filter.mpr ⟨hc, by simpa using hcT⟩)
  have hlast : lastOfType T cs =
      some ((cs.filter (fun c => decide (c.Typ = T))).getLast hne) :=
    List.getLast?_eq_getLast _ hne
  have hs : s.SetConditions cs = some ⟨r⟩ := by
    simp [setConditions_eq_setLoop, hr]
  refine ⟨⟨r⟩, _, ?_, hs, hlast, ?_⟩
  · rw [setConditions_own, hs]
    rfl
  · exact getLoop_setLoop_last T cs s.Conditions r _ hlast hr

/-- C2, amended, at a status holding Ready, set with a Ready, a Synced and a second
Ready that are held in an array of their own. -/
theorem C2_getCondition_after_setConditions_witness :
    "Ready" ∈ typesOf [sampleNotReady, sampleSynced, sampleReadyLater] ∧
      ∃ r last,
        CallMemory.SetConditions
            { arr := [] ++ [sampleNotReady, sampleSynced, sampleReadyLater] ++ [],
              recv := Receiver.own [sampleReady] }
            0 3 =
          some { arr := [] ++ [sampleNotReady, sampleSynced, sampleReadyLater] ++ [],
                 recv := Receiver.own r.Conditions } ∧
        ConditionedStatus.SetConditions ⟨[sampleReady]⟩
          [sampleNotReady, sampleSynced, sampleReadyLater] = some r ∧
        lastOfType "Ready" [sampleNotReady, sampleSynced, sampleReadyLater] = some last ∧
        (r.GetCondition "Ready").Equal last = true :=
  ⟨by decide, C2_getCondition_after_setConditions ⟨[sampleReady]⟩ []
    [sampleNotReady, sampleSynced, sampleReadyLater] [] "Ready" (by decide)⟩

/-- C3. When the stored conditions have pairwise distinct types and every supplied
condition is `Equal` to the stored condition of its type, `SetConditions` leaves the
stored sequence exactly as it was: no entry, and no `LastTransitionTime`, is written. -/
theorem C3_setConditions_noop_when_equal (s : ConditionedStatus) (cs : List Condition)
    (hU : UniqueTypes s)
    (hEq : ∀ c ∈ cs, ∃ e ∈ s.Conditions, e.Typ = c.Typ ∧ e.Equal c = true) :
    s.SetConditions cs = some s := by
  simp [setConditions_eq_setLoop, setLoop_of_equal cs s.Conditions hU hEq]

/-- C3 at a status holding Ready stamped 1, set with the same Ready stamped 9. -/
theorem C3_setConditions_noop_when_equal_witness :
    ConditionedStatus.SetConditions ⟨[sampleReady, sampleSynced]⟩ [sampleReadyLater] =
      some ⟨[sampleReady, sampleSynced]⟩ :=
  C3_setConditions_noop_when_equal ⟨[sampleReady, sampleSynced]⟩ [sampleReadyLater]
    (by decide) (by decide)

/-- C4. When the stored conditions have pairwise distinct types and index `i` holds a
condition of the type of `c` that is not `Equal` to `c`, `SetConditions(c)` writes `c`
at index `i` and nothing else: the length is kept, entry `i` is `c` with its own
`LastTransitionTime`, and every other entry is unchanged. -/
theorem C4_setConditions_replaces_in_place (s : ConditionedStatus) (c e : Condition)
    (i : Nat) (hU : UniqueTypes s) (hi : s.Conditions[i]? = some e)
    (hT : e.Typ = c.Typ) (hE : e.Equal c = false) :
    ∃ r, s.SetConditions [c] = some r ∧
      r.Conditions = s.Conditions.set i c ∧
      r.Conditions.length = s.Conditions.length ∧
      r.Conditions[i]? = some c ∧
      ∀ j, j ≠ i → r.Conditions[j]? = s.Conditions[j]? := by
  have hm : c.Typ ∈ typesOf s.Conditions :=
    List.mem_map.mpr ⟨e, List.getElem?_mem hi, hT⟩
  have hlt : i < s.Conditions.length := by
    by_contra hge
    rw [List.getElem?_eq_none (not_lt.mp hge)] at hi
    exact Option.noConfusion hi
  refine ⟨⟨s.Conditions.set i c⟩, ?_, rfl, by simp, ?_, ?_⟩
  · simp [setConditions_eq_setLoop, setLoop_singleton, setOne_eq, hm,
      map_overwrite_eq_set c e s.Conditions i hU hi hT hE]
  · simp [List.getElem?_set, hlt]
  · intro j hj
    simp [List.getElem?_set, Ne.symm hj]

/-- C4 at a status holding Ready is True at index 0, set with Ready is False. -/
theorem C4_setConditions_replaces_in_place_witness :
    ∃ r, ConditionedStatus.SetConditions ⟨[sampleReady, sampleSynced]⟩ [sampleNotReady] =
        some r ∧
      r.Conditions = [sampleReady, sampleSynced].set 0 sampleNotReady ∧
      r.Conditions.length = [sampleReady, sampleSynced].length ∧
      r.Conditions[0]? = some sampleNotReady ∧
      ∀ j, j ≠ 0 → r.Conditions[j]? = [sampleReady, sampleSynced][j]? :=
  C4_setConditions_replaces_in_place ⟨[sampleReady, sampleSynced]⟩ sampleNotReady
    sampleReady 0 (by decide) (by decide) (by decide) (by decide)

/-- C5. When no stored condition has the type of `c`, `SetConditions(c)` appends `c`:
the result is the previous sequence followed by `c`, one entry longer. -/
theorem C5_setConditions_appends_new_type (s : ConditionedStatus) (c : Condition)
    (h : ∀ e ∈ s.Conditions, e.Typ ≠ c.Typ) :
    ∃ r, s.SetConditions [c] = some r ∧
      r.Conditions = s.Conditions ++ [c] ∧
      r.Conditions.length = s.Conditions.length + 1 := by
  have hm : c.Typ ∉ typesOf s.Conditions := by
    intro hmem
    obtain ⟨e, he, hT⟩ := List.mem_map.mp hmem
    exact h e he hT
  refine ⟨⟨s.Conditions ++ [c]⟩, ?_, rfl, by simp⟩
  simp [setConditions_eq_setLoop, setLoop_singleton, setOne_eq, hm]

/-- C5 at a status holding Ready, set with Synced. -/
theorem C5_setConditions_appends_new_type_witness :
    ∃ r, ConditionedStatus.SetConditions ⟨[sampleReady]⟩ [sampleSynced] = some r ∧
      r.Conditions = [sampleReady] ++ [sampleSynced] ∧
      r.Conditions.length = [sampleReady].length + 1 :=
  C5_setConditions_appends_new_type ⟨[sampleReady]⟩ sampleSynced (by decide)

/-- C6. `GetCondition(ct)` on a non-nil status returns the first stored condition of
type `ct`, with all of its fields, when there is one, and otherwise the placeholder of
type `ct` with status Unknown, empty reason, empty message and the zero time. The
result is always a condition; the receiver is only read. -/
theorem C6_getCondition_first_or_unknown (s : ConditionedStatus) (ct : ConditionType) :
    s.GetCondition ct =
      match s.Conditions.find? (fun c => decide (c.Typ = ct)) with
      | some c => c
      | none => unknownCondition ct :=
  getLoop_eq_find ct s.Conditions

/-- C10. `Condition.Equal` holds exactly when type, status, reason and message agree;
changing either `LastTransitionTime` never changes the result, and two conditions that
differ in their message are not `Equal`. -/
theorem C10_condition_equal_iff (c o : Condition) :
    (c.Equal o = true ↔
      c.Typ = o.Typ ∧ c.Status = o.Status ∧ c.Reason = o.Reason ∧ c.Message = o.Message) ∧
    (∀ t u : Time, Condition.Equal { c with LastTransitionTime := t }
      { o with LastTransitionTime := u } = c.Equal o) ∧
    (∀ m : String, m ≠ c.Message → c.Equal { c with Message := m } = false) := by
  refine ⟨?_, ?_, ?_⟩
  · simp only [Condition.Equal, Bool.and_eq_true, decide_eq_true_eq, and_assoc]
  · intro t u; rfl
  · intro m hm
    simp [Condition.Equal, Ne.symm hm]


/-! ## Claims on `ConditionedStatus.Equal` -/

/-- C7. `ConditionedStatus.Equal` does not depend on the order of insertion: for
conditions `cs` of pairwise distinct types and a list `cs'` that is a permutation `p`
of `cs` up to the `LastTransitionTime` of its elements, the statuses built by
`NewConditionedStatus` from `cs` and from `cs'` compare `Equal`, for every sort that
meets the contract of `sort.Slice`. -/
theorem C7_equal_insensitive_to_insertion_order (srt : SliceSorter)
    (cs p cs' : List Condition) (hN : (typesOf cs).Nodup) (hp : p.Perm cs)
    (hE : List.Forall₂ (fun a b => a.Equal b = true) p cs') :
    ∃ s o, NewConditionedStatus cs = some s ∧ NewConditionedStatus cs' = some o ∧
      ConditionedStatus.Equal srt (some s) (some o) = some true := by
  have hN' : (typesOf cs').Nodup := by
    rw [← forall₂_typesOf_eq hE]
    have hpt : (typesOf p).Perm (typesOf cs) := hp.map _
    exact (hpt.nodup_iff).mpr hN
  have h1 : NewConditionedStatus cs = some ⟨cs⟩ := by
    have := setLoop_of_fresh cs [] (by simpa using hN)
    simp [NewConditionedStatus, setConditions_eq_setLoop, this]
  have h2 : NewConditionedStatus cs' = some ⟨cs'⟩ := by
    have := setLoop_of_fresh cs' [] (by simpa using hN')
    simp [NewConditionedStatus, setConditions_eq_setLoop, this]
  refine ⟨⟨cs⟩, ⟨cs'⟩, h1, h2, ?_⟩
  rw [equal_true_iff srt ⟨cs⟩ ⟨cs'⟩ hN' hN]
  refine ⟨?_, ?_⟩
  · show cs.length = cs'.length
    rw [← hp.length_eq, hE.length_eq]
  · intro c hc
    exact forall₂_exists_right hE c (hp.mem_iff.mpr hc)

/-- C7 at Ready then Synced against Synced then Ready, the latter Ready stamped 9. -/
theorem C7_equal_insensitive_to_insertion_order_witness :
    ∃ s o, NewConditionedStatus [sampleReady, sampleSynced] = some s ∧
      NewConditionedStatus [sampleSynced, sampleReadyLater] = some o ∧
      ConditionedStatus.Equal insertionSorter (some s) (some o) = some true :=
  C7_equal_insensitive_to_insertion_order insertionSorter [sampleReady, sampleSynced]
    [sampleSynced, sampleReady] [sampleSynced, sampleReadyLater] (by decide)
    (List.Perm.swap sampleReady sampleSynced [])
    (List.Forall₂.cons (by decide) (List.Forall₂.cons (by decide) List.Forall₂.nil))

/-- C8. `ConditionedStatus.Equal` is reflexive and symmetric on all references, nil or
not and whatever they store: `s.Equal(s)` is true and `s.Equal(o) = o.Equal(s)`, for
every sort that meets the contract of `sort.Slice`. -/
theorem C8_equal_reflexive_symmetric (srt : SliceSorter) :
    (∀ s : Option ConditionedStatus, ConditionedStatus.Equal srt s s = some true) ∧
    (∀ s o : Option ConditionedStatus,
      ConditionedStatus.Equal srt s o = ConditionedStatus.Equal srt o s) := by
  refine ⟨?_, ?_⟩
  · intro s
    cases s with
    | none => rfl
    | some s => simp [equal_some_some, allEqual_refl]
  · intro s o
    cases s with
    | none => cases o <;> rfl
    | some s =>
      cases o with
      | none => rfl
      | some o =>
        rw [equal_some_some, equal_some_some, allEqual_comm]
        by_cases h : s.Conditions.length = o.Conditions.length
        · simp [h]
        · simp [h, Ne.symm h]

/-- C9. `ConditionedStatus.Equal` returns true on two nil references, false when
exactly one is nil, false on non-nil statuses of different lengths, and always returns
a boolean; on non-nil statuses that each hold at most one condition per type it is
true exactly when both hold the same number of conditions and every condition of the
first has in the second a condition of the same type, status, reason and message. -/
theorem C9_equal_decides_equality (srt : SliceSorter) :
    ConditionedStatus.Equal srt none none = some true ∧
    (∀ o, ConditionedStatus.Equal srt none (some o) = some false) ∧
    (∀ s, ConditionedStatus.Equal srt (some s) none = some false) ∧
    (∀ s o : ConditionedStatus, s.Conditions.length ≠ o.Conditions.length →
      ConditionedStatus.Equal srt (some s) (some o) = some false) ∧
    (∀ s o, ∃ b, ConditionedStatus.Equal srt s o = some b) ∧
    (∀ s o : ConditionedStatus, UniqueTypes s → UniqueTypes o →
      (ConditionedStatus.Equal srt (some s) (some o) = some true ↔
        s.Conditions.length = o.Conditions.length ∧
          ∀ c ∈ s.Conditions, ∃ d ∈ o.Conditions,
            d.Typ = c.Typ ∧ d.Status = c.Status ∧ d.Reason = c.Reason ∧
              d.Message = c.Message)) := by
  refine ⟨rfl, fun _ => rfl, fun _ => rfl, ?_, ?_, ?_⟩
  · intro s o h
    simp [equal_some_some, h]
  · intro s o
    cases s with
    | none => cases o <;> exact ⟨_, rfl⟩
    | some s =>
      cases o with
      | none => exact ⟨_, rfl⟩
      | some o => exact ⟨_, equal_some_some srt s o⟩
  · intro s o hs ho
    rw [equal_true_iff srt s o ho hs]
    have hfield : ∀ c d : Condition, c.Equal d = true ↔
        (d.Typ = c.Typ ∧ d.Status = c.Status ∧ d.Reason = c.Reason ∧
          d.Message = c.Message) := by
      intro c d
      simp only [Condition.Equal, Bool.and_eq_true, decide_eq_true_eq, and_assoc]
      constructor
      · rintro ⟨h1, h2, h3, h4⟩; exact ⟨h1.symm, h2.symm, h3.symm, h4.symm⟩
      · rintro ⟨h1, h2, h3, h4⟩; exact ⟨h1.symm, h2.symm, h3.symm, h4.symm⟩
    simp only [hfield]

/-- C9 at Ready then Synced against Synced then Ready, compared with insertion sort. -/
theorem C9_equal_decides_equality_witness :
    UniqueTypes ⟨[sampleReady, sampleSynced]⟩ ∧
    UniqueTypes ⟨[sampleSynced, sampleReadyLater]⟩ ∧
    ConditionedStatus.Equal insertionSorter (some ⟨[sampleReady, sampleSynced]⟩)
      (some ⟨[sampleSynced, sampleReadyLater]⟩) = some true :=
  ⟨by decide, by decide,
    ((C9_equal_decides_equality insertionSorter).2.2.2.2.2
      ⟨[sampleReady, sampleSynced]⟩ ⟨[sampleSynced, sampleReadyLater]⟩
      (by decide) (by decide)).mpr (by decide)⟩


/-! ## Frame and order of the stored types under `SetConditions` -/

theorem setOne_typesOf (conds r : List Condition) (c : Condition)
    (h : setOne conds c = some r) :
    typesOf r = typesOf conds ++ (if c.Typ ∈ typesOf conds then [] else [c.Typ]) := by
  rw [setOne_eq] at h
  injection h with h
  subst h
  by_cases hm : c.Typ ∈ typesOf conds
  · simp only [if_pos hm, typesOf_map_overwrite, List.append_nil]
  · simp only [if_neg hm]
    simp [typesOf]

theorem setLoop_typesOf (cs : List Condition) :
    ∀ conds r, setLoop conds cs = some r →
      typesOf r = typesOf conds ++ newTypes (typesOf conds) cs := by
  induction cs with
  | nil =>
    intro conds r h
    simp only [setLoop, Option.some.injEq] at h
    simp [h, newTypes]
  | cons c cs ih =>
    intro conds r h
    simp only [setLoop] at h
    cases hs : setOne conds c with
    | none => simp [hs] at h
    | some mid =>
      simp only [hs] at h
      have hmid := setOne_typesOf conds mid c hs
      have hr := ih mid r h
      by_cases hm : c.Typ ∈ typesOf conds
      · simp only [if_pos hm, List.append_nil] at hmid
        rw [hr, hmid]
        simp [newTypes, hm]
      · simp only [if_neg hm] at hmid
        rw [hr, hmid]
        simp [newTypes, hm]

theorem setOne_getElem_other (conds r : List Condition) (c e : Condition) (i : Nat)
    (h : setOne conds c = some r) (hi : conds[i]? = some e) (hne : e.Typ ≠ c.Typ) :
    r[i]? = some e := by
  rw [setOne_eq] at h
  injection h with h
  subst h
  have hlt : i < conds.length := by
    by_contra hge
    rw [List.getElem?_eq_none (not_lt.mp hge)] at hi
    exact Option.noConfusion hi
  split
  · rw [List.getElem?_map, hi]
    simp [overwrite_other c e hne]
  · rw [List.getElem?_append_left hlt]
    exact hi

theorem setLoop_getElem_other (cs : List Condition) :
    ∀ (conds r : List Condition) (e : Condition) (i : Nat), setLoop conds cs = some r →
      conds[i]? = some e → (∀ c ∈ cs, c.Typ ≠ e.Typ) → r[i]? = some e := by
  induction cs with
  | nil =>
    intro conds r e i h hi _
    simp only [setLoop, Option.some.injEq] at h
    rw [← h]; exact hi
  | cons c cs ih =>
    intro conds r e i h hi hne
    simp only [setLoop] at h
    cases hs : setOne conds c with
    | none => simp [hs] at h
    | some mid =>
      simp only [hs] at h
      have hmid := setOne_getElem_other conds mid c e i hs hi
        (fun hh => hne c (List.mem_cons_self c cs) hh.symm)
      exact ih mid r e i h hmid (fun x hx => hne x (List.mem_cons_of_mem c hx))

theorem setLoop_getLoop_other (cs : List Condition) (T : ConditionType) :
    ∀ (conds r : List Condition), setLoop conds cs = some r → T ∉ typesOf cs →
      getLoop T r = getLoop T conds := by
  induction cs with
  | nil =>
    intro conds r h _
    simp only [setLoop, Option.some.injEq] at h
    rw [h]
  | cons c cs ih =>
    intro conds r h hT
    simp only [typesOf, List.map_cons, List.mem_cons, not_or] at hT
    simp only [setLoop] at h
    cases hs : setOne conds c with
    | none => simp [hs] at h
    | some mid =>
      simp only [hs] at h
      rw [ih mid r h hT.2]
      exact getLoop_setOne_other conds mid c T (fun hh => hT.1 hh.symm) hs

/-! ## A second `SetConditions` call with the same conditions -/

theorem settle_cons (c : Condition) (cs : List Condition) (e : Condition) :
    settle (c :: cs) e = settle cs (overwrite c e) := rfl

theorem settle_concat (xs : List Condition) (c e : Condition) :
    settle (xs ++ [c]) e = overwrite c (settle xs e) := by
  simp [settle, List.foldl_append]

theorem settle_typ (cs : List Condition) : ∀ e, (settle cs e).Typ = e.Typ := by
  induction cs with
  | nil => intro e; rfl
  | cons c cs ih => intro e; rw [settle_cons, ih, overwrite_typ]

theorem settle_of_absent (cs : List Condition) :
    ∀ e, e.Typ ∉ typesOf cs → settle cs e = e := by
  induction cs with
  | nil => intro e _; rfl
  | cons c cs ih =>
    intro e h
    simp only [typesOf, List.map_cons, List.mem_cons, not_or] at h
    rw [settle_cons, overwrite_other c e h.1, ih e h.2]

theorem overwrite_equal_congr (x u w : Condition) (h : u.Equal w = true) :
    (overwrite x u).Equal (overwrite x w) = true := by
  have hT : u.Typ = w.Typ := Condition.equal_typ u w h
  by_cases hx : u.Typ = x.Typ
  · by_cases hE : u.Equal x = true
    · have hE2 : w.Equal x = true :=
        Condition.equal_trans w u x ((Condition.equal_comm w u).trans h) hE
      simp [overwrite, hE, hE2, h]
    · have hE2 : ¬ w.Equal x = true := fun hh => hE (Condition.equal_trans u w x h hh)
      simp [overwrite, hx, hT ▸ hx, hE, hE2, Condition.equal_refl]
  · rw [overwrite_other x u hx, overwrite_other x w (hT ▸ hx)]
    exact h

theorem settle_equal_congr (cs : List Condition) :
    ∀ u w, u.Equal w = true → (settle cs u).Equal (settle cs w) = true := by
  induction cs with
  | nil => intro u w h; exact h
  | cons c cs ih =>
    intro u w h
    rw [settle_cons, settle_cons]
    exact ih _ _ (overwrite_equal_congr c u w h)

/-- Two conditions of one type end a call `Equal` to each other, unless the call
touches neither of them. -/
theorem settle_equal_or_fixed (cs : List Condition) :
    ∀ u w, u.Typ = w.Typ →
      (settle cs u).Equal (settle cs w) = true ∨ (settle cs u = u ∧ settle cs w = w) := by
  induction cs with
  | nil => intro u w _; exact Or.inr ⟨rfl, rfl⟩
  | cons c cs ih =>
    intro u w hT
    rw [settle_cons, settle_cons]
    by_cases hc : u.Typ = c.Typ
    · left
      apply settle_equal_congr
      have h1 := overwrite_equal c u hc
      have h2 := overwrite_equal c w (hT ▸ hc)
      exact Condition.equal_trans _ c _ h1 ((Condition.equal_comm c _).trans h2)
    · rw [overwrite_other c u hc, overwrite_other c w (hT ▸ hc)]
      exact ih u w hT

/-- A condition that a call over `xs` leaves alone is, once `c` has overwritten it,
left alone by the call over `xs` followed by `c`. -/
theorem settle_concat_stable (xs : List Condition) (c e : Condition)
    (h : settle xs e = e) : settle (xs ++ [c]) (overwrite c e) = overwrite c e := by
  rw [settle_concat]
  by_cases hT : e.Typ = c.Typ
  · by_cases hE : e.Equal c = true
    · have he : overwrite c e = e := by simp [overwrite, hE]
      rw [he, h, he]
    · have hF : e.Equal c = false := by simpa using hE
      have he : overwrite c e = c := by simp [overwrite, hT, hF]
      rw [he]
      rcases settle_equal_or_fixed xs c e hT.symm with hD | hD
      · rw [h] at hD
        have hne : (settle xs c).Equal c = false := by
          rw [← Bool.not_eq_true]
          intro hh
          exact hE (Condition.equal_trans e (settle xs c) c
            ((Condition.equal_comm e _).trans hD) hh)
        simp [overwrite, settle_typ, hne]
      · rw [hD.1]
        simp [overwrite, Condition.equal_refl]
  · have he : overwrite c e = e := overwrite_other c e hT
    rw [he, h, he]

theorem mem_newTypes_or_seen (cs : List Condition) :
    ∀ (seen : List ConditionType) (c : Condition), c ∈ cs →
      c.Typ ∈ seen ∨ c.Typ ∈ newTypes seen cs := by
  induction cs with
  | nil => intro seen c hc; simp at hc
  | cons x cs ih =>
    intro seen c hc
    rcases List.mem_cons.mp hc with hc | hc
    · subst hc
      by_cases hm : c.Typ ∈ seen
      · exact Or.inl hm
      · right; simp [newTypes, hm]
    · by_cases hm : x.Typ ∈ seen
      · simp only [newTypes, if_pos hm]
        exact ih seen c hc
      · simp only [newTypes, if_neg hm]
        rcases ih (seen ++ [x.Typ]) c hc with h | h
        · rcases List.mem_append.mp h with h | h
          · exact Or.inl h
          · right
            simp only [List.mem_singleton] at h
            rw [h]; exact List.mem_cons_self _ _
        · right; exact List.mem_cons_of_mem _ h

/-- After a call every supplied type is stored. -/
theorem setLoop_types_present (cs conds r : List Condition)
    (h : setLoop conds cs = some r) : ∀ c ∈ cs, c.Typ ∈ typesOf r := by
  intro c hc
  rw [setLoop_typesOf cs conds r h]
  exact List.mem_append.mpr (mem_newTypes_or_seen cs (typesOf conds) c hc)

/-- When every supplied type is stored already, a call appends nothing: it is the
element-wise overwriting of the stored conditions. -/
theorem setLoop_eq_map_settle (cs : List Condition) :
    ∀ conds, (∀ c ∈ cs, c.Typ ∈ typesOf conds) →
      setLoop conds cs = some (conds.map (settle cs)) := by
  induction cs with
  | nil =>
    intro conds _
    have hid : settle [] = (id : Condition → Condition) := funext (fun _ => rfl)
    simp [setLoop, hid]
  | cons c cs ih =>
    intro conds h
    have hc : c.Typ ∈ typesOf conds := h c (List.mem_cons_self c cs)
    simp only [setLoop, setOne_eq, if_pos hc]
    rw [ih (conds.map (overwrite c))
      (fun x hx => by rw [typesOf_map_overwrite]; exact h x (List.mem_cons_of_mem c hx))]
    simp [List.map_map, Function.comp_def, settle_cons]

/-- Every condition stored after a call is left alone by a second call with the same
conditions. -/
theorem setLoop_stable (cs : List Condition) :
    ∀ conds r, setLoop conds cs = some r → ∀ e ∈ r, settle cs e = e := by
  induction cs using List.reverseRecOn with
  | nil => intro conds r _ e _; rfl
  | append_singleton xs c ih =>
    intro conds r hr e he
    rw [setLoop_concat] at hr
    obtain ⟨mid, hmid⟩ := setLoop_total xs conds
    rw [hmid, Option.some_bind, setOne_eq] at hr
    injection hr with hr
    by_cases hm : c.Typ ∈ typesOf mid
    · rw [if_pos hm] at hr
      subst hr
      obtain ⟨e0, he0, rfl⟩ := List.mem_map.mp he
      exact settle_concat_stable xs c e0 (ih conds mid hmid e0 he0)
    · rw [if_neg hm] at hr
      subst hr
      rcases List.mem_append.mp he with he | he
      · have hne : e.Typ ≠ c.Typ := fun hh => hm (hh ▸ List.mem_map.mpr ⟨e, he, rfl⟩)
        have := settle_concat_stable xs c e (ih conds mid hmid e he)
        rwa [overwrite_other c e hne] at this
      · simp only [List.mem_singleton] at he
        subst he
        have habs : e.Typ ∉ typesOf xs := by
          intro hx
          obtain ⟨x, hxm, hxt⟩ := List.mem_map.mp hx
          exact hm (hxt ▸ setLoop_types_present xs conds mid hmid x hxm)
        rw [settle_concat, settle_of_absent xs e habs]
        simp [overwrite, Condition.equal_refl]

/-- A second call with the same conditions changes nothing. -/
theorem setLoop_idempotent (cs conds r : List Condition) (h : setLoop conds cs = some r) :
    setLoop r cs = some r := by
  rw [setLoop_eq_map_settle cs r (setLoop_types_present cs conds r h)]
  congr 1
  conv_rhs => rw [← List.map_id r]
  exact List.map_congr_left (fun e he => setLoop_stable cs conds r h e he)

/-! ## Further claims on `Condition` and `SetConditions` -/

/-- C11. `Condition.Matches` holds exactly when type, status and reason agree,
whatever the messages and the `LastTransitionTime`s are; `Equal` implies `Matches`, and
two conditions that differ only in their message match but are not `Equal`. -/
theorem C11_condition_matches_iff (c o : Condition) :
    (c.Matches o = true ↔ c.Typ = o.Typ ∧ c.Status = o.Status ∧ c.Reason = o.Reason) ∧
    (∀ (m n : String) (t u : Time),
      Condition.Matches { c with Message := m, LastTransitionTime := t }
        { o with Message := n, LastTransitionTime := u } = c.Matches o) ∧
    (c.Equal o = true → c.Matches o = true) ∧
    (∀ m : String, m ≠ c.Message →
      c.Matches { c with Message := m } = true ∧ c.Equal { c with Message := m } = false) := by
  refine ⟨?_, ?_, ?_, ?_⟩
  · simp only [Condition.Matches, Bool.and_eq_true, decide_eq_true_eq, and_assoc]
  · intro m n t u; rfl
  · intro h
    simp only [Condition.Equal, Bool.and_eq_true, decide_eq_true_eq] at h
    simp [Condition.Matches, h.1.1.1, h.1.1.2, h.1.2]
  · intro m hm
    simp [Condition.Matches, Condition.Equal, Ne.symm hm]


/-- C11 at Ready stamped 1 against the same Ready stamped 9: `Equal`, hence a match. -/
theorem C11_condition_matches_iff_witness :
    sampleReady.Equal sampleReadyLater = true ∧
      sampleReady.Matches sampleReadyLater = true :=
  ⟨by decide, (C11_condition_matches_iff sampleReady sampleReadyLater).2.2.1 (by decide)⟩

/-- C12. The supplied conditions are processed one by one in the order given:
`SetConditions(xs ++ ys)` leaves the receiver in the state that `SetConditions(xs...)`
followed by `SetConditions(ys...)` leaves it in; without arguments the receiver is
unchanged; and `NewConditionedStatus(cs...)` is the empty status after
`SetConditions(cs...)`. -/
theorem C12_setConditions_sequential (s : ConditionedStatus) (xs ys : List Condition) :
    s.SetConditions (xs ++ ys) =
      (s.SetConditions xs).bind (fun r => r.SetConditions ys) ∧
    s.SetConditions [] = some s ∧
    NewConditionedStatus xs = ConditionedStatus.SetConditions ⟨[]⟩ xs := by
  refine ⟨?_, rfl, rfl⟩
  simp only [setConditions_eq_setLoop]
  rw [setLoop_append]
  cases setLoop s.Conditions xs with
  | none => rfl
  | some r => rfl

/-- C17. The ready / not-ready scenario, for all clock readings `t1`, `t2`, `t3`: from
the empty status, `SetConditions(Available())` stamped `t1` makes Ready True with reason
ReasonAvailable; `SetConditions(Unavailable())` stamped `t2` then makes it False with
reason ReasonUnavailable and time `t2`, the collection holding one condition; a further
`SetConditions(Unavailable())` stamped `t3` leaves one condition, still stamped `t2`. -/
theorem C17_ready_scenario (t1 t2 t3 : Time) :
    ∃ s1 s2 s3 : ConditionedStatus,
      ConditionedStatus.SetConditions ⟨[]⟩ [Available t1] = some s1 ∧
      (s1.GetCondition TypeReady).Status = ConditionTrue ∧
      (s1.GetCondition TypeReady).Reason = ReasonAvailable ∧
      s1.SetConditions [Unavailable t2] = some s2 ∧
      (s2.GetCondition TypeReady).Status = ConditionFalse ∧
      (s2.GetCondition TypeReady).Reason = ReasonUnavailable ∧
      (s2.GetCondition TypeReady).LastTransitionTime = t2 ∧
      s2.Conditions.length = 1 ∧
      s2.SetConditions [Unavailable t3] = some s3 ∧
      s3.Conditions.length = 1 ∧
      s3.Conditions = [Unavailable t2] ∧
      (s3.GetCondition TypeReady).LastTransitionTime = t2 :=
  ⟨⟨[Available t1]⟩, ⟨[Unavailable t2]⟩, ⟨[Unavailable t2]⟩,
    rfl, rfl, rfl, rfl, rfl, rfl, rfl, rfl, rfl, rfl, rfl, rfl⟩

/-- C18. A condition type is never removed and never moves: the types stored before
`SetConditions(cs...)` are a prefix of the types stored after it, so the length does
not decrease and every type keeps its index; the types added at the end are the types
of `cs` not stored before, in the order of their first occurrence in `cs`. -/
theorem C18_types_prefix_preserved (s : ConditionedStatus) (cs : List Condition) :
    ∃ r, s.SetConditions cs = some r ∧
      typesOf s.Conditions <+: typesOf r.Conditions ∧
      s.Conditions.length ≤ r.Conditions.length ∧
      (∀ (i : Nat) (t : ConditionType), (typesOf s.Conditions)[i]? = some t →
        (typesOf r.Conditions)[i]? = some t) ∧
      typesOf r.Conditions = typesOf s.Conditions ++ newTypes (typesOf s.Conditions) cs := by
  obtain ⟨r, hr⟩ := setLoop_total cs s.Conditions
  have ht := setLoop_typesOf cs s.Conditions r hr
  refine ⟨⟨r⟩, by simp [setConditions_eq_setLoop, hr], ⟨_, ht.symm⟩, ?_, ?_, ht⟩
  · have hl := congrArg List.length ht
    simp only [typesOf, List.length_map, List.length_append] at hl
    show s.Conditions.length ≤ r.length
    omega
  · intro i t hi
    show (typesOf r)[i]? = some t
    have hlt : i < (typesOf s.Conditions).length := by
      by_contra hge
      rw [List.getElem?_eq_none (not_lt.mp hge)] at hi
      exact Option.noConfusion hi
    rw [ht, List.getElem?_append_left hlt]
    exact hi


/-- C18 at a status holding Ready, set with Synced and a second Ready. -/
theorem C18_types_prefix_preserved_witness :
    ∃ r, ConditionedStatus.SetConditions ⟨[sampleReady]⟩ [sampleSynced, sampleNotReady] =
        some r ∧
      (typesOf r.Conditions)[0]? = some "Ready" := by
  obtain ⟨r, hr, _, _, hidx, _⟩ :=
    C18_types_prefix_preserved ⟨[sampleReady]⟩ [sampleSynced, sampleNotReady]
  exact ⟨r, hr, hidx 0 "Ready" (by decide)⟩

/-- C19. The collection operations are total: `SetConditions` returns for every
status and every list of conditions, each scan writing inside the bounds of the slice
and keeping its length; `Equal` returns a boolean for every pair of references, nil or
not, because its loop runs on two slices of the same length, on which every access is
in range. An access outside the bounds is a panic of the embedding, as the last two
parts show. -/
theorem C19_operations_total :
    (∀ (s : ConditionedStatus) (cs : List Condition), ∃ r, s.SetConditions cs = some r) ∧
    (∀ (new : Condition) (conds : List Condition), ∃ r ex,
      scanExisting new conds.length 0 conds false = some (r, ex) ∧
        r.length = conds.length) ∧
    (∀ (srt : SliceSorter) (s o : Option ConditionedStatus),
      ∃ b, ConditionedStatus.Equal srt s o = some b) ∧
    (∀ sc oc : List Condition, sc.length = oc.length →
      ∃ b, compareLoop sc oc sc.length 0 = some b) ∧
    writeAt [] 0 sampleReady = none ∧
    compareLoop [sampleReady] [] 1 0 = none := by
  refine ⟨?_, ?_, ?_, ?_, rfl, rfl⟩
  · intro s cs
    obtain ⟨r, hr⟩ := setLoop_total cs s.Conditions
    exact ⟨⟨r⟩, by simp [setConditions_eq_setLoop, hr]⟩
  · intro new conds
    have h := scanExisting_eq new conds [] false
    simp only [List.length_nil, List.nil_append] at h
    exact ⟨_, _, h, by simp⟩
  · intro srt s o
    cases s with
    | none => cases o <;> exact ⟨_, rfl⟩
    | some s =>
      cases o with
      | none => exact ⟨_, rfl⟩
      | some o => exact ⟨_, equal_some_some srt s o⟩
  · intro sc oc h
    have hc := compareLoop_eq sc oc [] [] h rfl
    simp only [List.nil_append, List.length_nil] at hc
    exact ⟨_, hc⟩


/-- C19 at two slices of length one: the comparison loop returns a boolean. -/
theorem C19_operations_total_witness :
    ∃ b, compareLoop [sampleReady] [sampleSynced] [sampleReady].length 0 = some b :=
  C19_operations_total.2.2.2.1 [sampleReady] [sampleSynced] (by decide)

/-- C20. `SetConditions` touches only the types it is given: a stored condition whose
type is the type of no supplied condition is, after the call, at the same index with
all of its fields; and `GetCondition(T)` returns the same value before and after for
every type `T` that does not occur among the supplied conditions. -/
theorem C20_setConditions_frame (s : ConditionedStatus) (cs : List Condition) :
    ∃ r, s.SetConditions cs = some r ∧
      (∀ (i : Nat) (e : Condition), s.Conditions[i]? = some e →
        (∀ c ∈ cs, c.Typ ≠ e.Typ) → r.Conditions[i]? = some e) ∧
      (∀ T : ConditionType, T ∉ typesOf cs → r.GetCondition T = s.GetCondition T) := by
  obtain ⟨r, hr⟩ := setLoop_total cs s.Conditions
  refine ⟨⟨r⟩, by simp [setConditions_eq_setLoop, hr], ?_, ?_⟩
  · intro i e hi hne
    exact setLoop_getElem_other cs s.Conditions r e i hr hi hne
  · intro T hT
    exact setLoop_getLoop_other cs T s.Conditions r hr hT



/-- C20 at a status holding Ready and Synced, set with a different Ready: Synced keeps
its index and its fields. -/
theorem C20_setConditions_frame_witness :
    ∃ r, ConditionedStatus.SetConditions ⟨[sampleReady, sampleSynced]⟩ [sampleNotReady] =
        some r ∧
      r.Conditions[1]? = some sampleSynced := by
  obtain ⟨r, hr, hidx, _⟩ :=
    C20_setConditions_frame ⟨[sampleReady, sampleSynced]⟩ [sampleNotReady]
  exact ⟨r, hr, hidx 1 sampleSynced (by decide) (by decide)⟩

/-- C13. `SetConditions` is idempotent: for every status and every list of conditions,
also one in which a type occurs several times with different contents, a second
`SetConditions(cs...)` right after the first leaves the stored sequence identical to
the one after the first call, timestamps included; the two states therefore compare
`ConditionedStatus.Equal` under every sort that meets the contract of `sort.Slice`. -/
theorem C13_setConditions_idempotent (s : ConditionedStatus) (cs : List Condition) :
    ∃ r, s.SetConditions cs = some r ∧ r.SetConditions cs = some r ∧
      (r.SetConditions cs).map (fun q => q.Conditions) = some r.Conditions ∧
      ∀ srt : SliceSorter,
        ConditionedStatus.Equal srt (some r) (r.SetConditions cs) = some true := by
  obtain ⟨r, hr⟩ := setLoop_total cs s.Conditions
  have h2 : ConditionedStatus.SetConditions ⟨r⟩ cs = some ⟨r⟩ := by
    simp [setConditions_eq_setLoop, setLoop_idempotent cs s.Conditions r hr]
  refine ⟨⟨r⟩, by simp [setConditions_eq_setLoop, hr], h2, by rw [h2]; rfl, ?_⟩
  intro srt
  rw [h2, equal_some_some]
  simp [allEqual_refl]


/-! ## `Capitalize` and `strings.Title` -/

theorem firstWord_append_fromSpace (l : List Char) : firstWord l ++ fromSpace l = l :=
  List.takeWhile_append_dropWhile _ l

theorem space_not_mem_firstWord (l : List Char) : ' ' ∉ firstWord l := by
  intro h
  have := List.mem_takeWhile_imp h
  simp at this

theorem fromSpace_head (l : List Char) (x : Char) (after : List Char)
    (h : fromSpace l = x :: after) : x = ' ' := by
  have hh := List.head?_dropWhile_not (fun r => !decide (r = ' ')) l
  unfold fromSpace at h
  rw [h] at hh
  simpa using hh

theorem firstWord_of_no_space (l : List Char) (h : ' ' ∉ l) : firstWord l = l := by
  unfold firstWord
  rw [List.takeWhile_eq_self_iff]
  intro x hx
  have : x ≠ ' ' := fun hh => h (hh ▸ hx)
  simp [this]

theorem fromSpace_of_no_space (l : List Char) (h : ' ' ∉ l) : fromSpace l = [] := by
  unfold fromSpace
  rw [List.dropWhile_eq_nil_iff]
  intro x hx
  have : x ≠ ' ' := fun hh => h (hh ▸ hx)
  simp [this]

theorem firstWord_append_space (before after : List Char) (h : ' ' ∉ before) :
    firstWord (before ++ ' ' :: after) = before := by
  induction before with
  | nil => simp [firstWord]
  | cons r rest ih =>
    have hr : r ≠ ' ' := fun hh => h (hh ▸ List.mem_cons_self _ _)
    have hrest : ' ' ∉ rest := fun hh => h (List.mem_cons_of_mem _ hh)
    have := ih hrest
    unfold firstWord at this ⊢
    simp [List.takeWhile_cons, hr, this]

theorem fromSpace_append_space (before after : List Char) (h : ' ' ∉ before) :
    fromSpace (before ++ ' ' :: after) = ' ' :: after := by
  induction before with
  | nil => simp [fromSpace]
  | cons r rest ih =>
    have hr : r ≠ ' ' := fun hh => h (hh ▸ List.mem_cons_self _ _)
    have hrest : ' ' ∉ rest := fun hh => h (List.mem_cons_of_mem _ hh)
    have := ih hrest
    unfold fromSpace at this ⊢
    simp [List.dropWhile_cons, hr, this]

/-- The search for the first space finds the first word and what follows the space. -/
theorem cutAtSpace_eq (l : List Char) :
    cutAtSpace l =
      match fromSpace l with
      | [] => none
      | _ :: after => some (firstWord l, after) := by
  induction l with
  | nil => rfl
  | cons r rest ih =>
    by_cases hr : r = ' '
    · subst hr
      simp [cutAtSpace, fromSpace, firstWord]
    · have hf : fromSpace (r :: rest) = fromSpace rest := by
        simp [fromSpace, List.dropWhile_cons, hr]
      have hw : firstWord (r :: rest) = r :: firstWord rest := by
        simp [firstWord, List.takeWhile_cons, hr]
      simp only [cutAtSpace, if_neg hr, ih, hf, hw]
      cases fromSpace rest with
      | nil => rfl
      | cons x after => rfl

/-- The runes of `Capitalize(s)`: the title-cased first word, then the rest of `s` from
its first space on, as given. -/
theorem capitalize_data (u : RuneTables) (s : String) :
    (Capitalize u s).data = titleFrom u ' ' (firstWord s.data) ++ fromSpace s.data := by
  unfold Capitalize SplitN2
  rw [cutAtSpace_eq]
  cases h : fromSpace s.data with
  | nil =>
    have hw : firstWord s.data = s.data := by
      have := firstWord_append_fromSpace s.data
      rw [h, List.append_nil] at this
      exact this
    simp [Title, hw]
  | cons x after =>
    have hx : x = ' ' := fromSpace_head s.data x after h
    subst hx
    simp [Join, Title, String.data_append]

theorem titleFrom_length (u : RuneTables) (l : List Char) :
    ∀ prev, (titleFrom u prev l).length = l.length := by
  induction l with
  | nil => intro prev; rfl
  | cons r rest ih => intro prev; simp [titleFrom, ih]

/-- A rune of a title-cased string that follows the rune `a` is mapped to title case
when `a` is a separator and is kept otherwise. -/
theorem titleFrom_getElem?_succ (u : RuneTables) (l : List Char) :
    ∀ (prev : Char) (i : Nat) (a r : Char), l[i]? = some a → l[i + 1]? = some r →
      (titleFrom u prev l)[i + 1]? = some (if isSeparator u a then toTitle u r else r) := by
  induction l with
  | nil => intro prev i a r h; simp at h
  | cons x rest ih =>
    intro prev i a r ha hr
    cases i with
    | zero =>
      simp only [List.getElem?_cons_zero, Option.some.injEq] at ha
      subst ha
      cases rest with
      | nil => simp at hr
      | cons y rest2 =>
        simp only [zero_add, List.getElem?_cons_succ, List.getElem?_cons_zero,
          Option.some.injEq] at hr
        subst hr
        simp [titleFrom]
    | succ j =>
      simp only [List.getElem?_cons_succ] at ha hr
      simp only [titleFrom, List.getElem?_cons_succ]
      exact ih x j a r ha hr

theorem titleFrom_of_no_separator (u : RuneTables) (l : List Char) :
    ∀ prev, isSeparator u prev = false → (∀ ch ∈ l, isSeparator u ch = false) →
      titleFrom u prev l = l := by
  induction l with
  | nil => intro prev _ _; rfl
  | cons r rest ih =>
    intro prev hp hl
    simp only [titleFrom, hp, Bool.false_eq_true, if_false, List.cons.injEq, true_and]
    exact ih r (hl r (List.mem_cons_self r rest))
      (fun ch hch => hl ch (List.mem_cons_of_mem r hch))

theorem toTitle_space (u : RuneTables) : toTitle u ' ' = ' ' := rfl

theorem isSeparator_space (u : RuneTables) : isSeparator u ' ' = true := rfl


theorem titleFrom_head (u : RuneTables) (x : Char) (rest : List Char) :
    (titleFrom u ' ' (x :: rest))[0]? = some (toTitle u x) := by
  simp [titleFrom, isSeparator_space]

theorem titleFrom_not_mem (u : RuneTables) (x : Char) (l : List Char) :
    ∀ prev, (∀ ch ∈ l, ch ≠ x ∧ toTitle u ch ≠ x) → x ∉ titleFrom u prev l := by
  induction l with
  | nil => intro prev _; simp [titleFrom]
  | cons r rest ih =>
    intro prev h
    have hr := h r (List.mem_cons_self r rest)
    have hrest := ih r (fun ch hch => h ch (List.mem_cons_of_mem r hch))
    simp only [titleFrom, List.mem_cons, not_or]
    refine ⟨?_, hrest⟩
    split
    · exact fun hh => hr.2 hh.symm
    · exact fun hh => hr.1 hh.symm

theorem capitalize_of_space (u : RuneTables) (before after : List Char)
    (h : ' ' ∉ before) :
    Capitalize u (String.mk (before ++ ' ' :: after)) =
      Title u (String.mk before) ++ " " ++ String.mk after := by
  apply String.ext
  rw [capitalize_data]
  simp only [firstWord_append_space before after h, fromSpace_append_space before after h,
    String.data_append, Title]
  simp

theorem capitalize_of_no_space (u : RuneTables) (s : String) (h : ' ' ∉ s.data) :
    Capitalize u s = Title u s := by
  apply String.ext
  rw [capitalize_data, firstWord_of_no_space s.data h, fromSpace_of_no_space s.data h]
  simp [Title]

theorem fromSpace_nil_or_space (l : List Char) :
    fromSpace l = [] ∨ ∃ after, fromSpace l = ' ' :: after := by
  cases h : fromSpace l with
  | nil => exact Or.inl rfl
  | cons y after => exact Or.inr ⟨after, by rw [fromSpace_head l y after h]⟩

/-- The runes of a string `L` made of a first word `W` and a rest `R` that is empty or
starts with a space, against the title-cased `W` followed by `R`. -/
theorem title_append_props (u : RuneTables) (W R L : List Char) (hd : W ++ R = L)
    (hR : R = [] ∨ ∃ after, R = ' ' :: after) :
    (titleFrom u ' ' W ++ R).length = L.length ∧
    (∀ x : Char, L[0]? = some x → (titleFrom u ' ' W ++ R)[0]? = some (toTitle u x)) ∧
    (∀ (i : Nat) (a x : Char), i + 1 < W.length → L[i]? = some a → L[i + 1]? = some x →
      (titleFrom u ' ' W ++ R)[i + 1]? =
        some (if isSeparator u a then toTitle u x else x)) ∧
    (∀ i : Nat, W.length ≤ i → (titleFrom u ' ' W ++ R)[i]? = L[i]?) ∧
    ((∀ ch ∈ W, isSeparator u ch = false) →
      titleFrom u ' ' W ++ R = mapFirst (toTitle u) L) := by
  subst hd
  have hlenT := titleFrom_length u W ' '
  refine ⟨by simp [hlenT], ?_, ?_, ?_, ?_⟩
  · intro x hx
    cases W with
    | nil =>
      rcases hR with hR | ⟨after, hR⟩
      · subst hR; simp at hx
      · subst hR
        simp only [List.nil_append, List.getElem?_cons_zero, Option.some.injEq] at hx
        subst hx
        simp [titleFrom, toTitle_space]
    | cons y rest =>
      simp only [List.cons_append, List.getElem?_cons_zero, Option.some.injEq] at hx
      subst hx
      simp [titleFrom, isSeparator_space]
  · intro i a x hi ha hx
    have hi0 : i < W.length := by omega
    rw [List.getElem?_append_left hi0] at ha
    rw [List.getElem?_append_left hi] at hx
    rw [List.getElem?_append_left (by rw [hlenT]; exact hi)]
    exact titleFrom_getElem?_succ u W ' ' i a x ha hx
  · intro i hi
    rw [List.getElem?_append_right (by rw [hlenT]; exact hi), hlenT,
      List.getElem?_append_right hi]
  · intro hsep
    cases W with
    | nil =>
      rcases hR with hR | ⟨after, hR⟩
      · subst hR; rfl
      · subst hR
        simp [titleFrom, toTitle_space, mapFirst]
    | cons y rest =>
      have hrest : titleFrom u y rest = rest := by
        apply titleFrom_of_no_separator
        · exact hsep y (List.mem_cons_self y rest)
        · exact fun ch hch => hsep ch (List.mem_cons_of_mem y hch)
      simp [titleFrom, isSeparator_space, hrest, mapFirst]

/-! ## Claims on `WithMessage`, `WithMessagef` and `Capitalize` -/

/-- C14, as stated, fails: `WithMessage("re-sync failed")` has the message
"Re-Sync failed", in which a letter other than the initial one is changed. -/
theorem C14_withMessage_counterexample :
    (Condition.WithMessage asciiTables sampleReady "re-sync failed").Message =
        "Re-Sync failed" ∧
      (Condition.WithMessage asciiTables sampleReady "re-sync failed").Message.data.drop 1 ≠
        "re-sync failed".data.drop 1 := by
  decide

/-- C14, amended. For a message `msg` of valid UTF-8, `WithMessage(msg)` keeps type,
status, reason and `LastTransitionTime`, and its message is `strings.Title` of the text
of `msg` before the first space, followed by `msg` from that space on: the message has
the length of `msg`, its first rune is the title case of the first rune of `msg`, a later
rune of the first word is mapped to title case when the rune before it is a separator
and is kept otherwise, and every rune from the first space on is kept. When the first
word holds no separator, only the first rune of `msg` is mapped. A separator is what
`strings.Title` takes for one: an ASCII rune other than a letter, a digit and the
underscore, or a rune above ASCII that is a space and neither a letter nor a digit; a
rune above ASCII that is not a space, such as a dash, is no separator. -/
theorem C14_withMessage_title_of_first_word (u : RuneTables) (c : Condition)
    (msg : String) :
    ((c.WithMessage u msg).Typ = c.Typ ∧ (c.WithMessage u msg).Status = c.Status ∧
      (c.WithMessage u msg).Reason = c.Reason ∧
      (c.WithMessage u msg).LastTransitionTime = c.LastTransitionTime) ∧
    (c.WithMessage u msg).Message.data =
      titleFrom u ' ' (firstWord msg.data) ++ fromSpace msg.data ∧
    (c.WithMessage u msg).Message.data.length = msg.data.length ∧
    (∀ x : Char, msg.data[0]? = some x →
      (c.WithMessage u msg).Message.data[0]? = some (toTitle u x)) ∧
    (∀ (i : Nat) (a x : Char), i + 1 < (firstWord msg.data).length →
      msg.data[i]? = some a → msg.data[i + 1]? = some x →
      (c.WithMessage u msg).Message.data[i + 1]? =
        some (if isSeparator u a then toTitle u x else x)) ∧
    (∀ i : Nat, (firstWord msg.data).length ≤ i →
      (c.WithMessage u msg).Message.data[i]? = msg.data[i]?) ∧
    ((∀ ch ∈ firstWord msg.data, isSeparator u ch = false) →
      (c.WithMessage u msg).Message.data = mapFirst (toTitle u) msg.data) ∧
    (∀ r : Char, r.toNat ≤ 0x7F →
      (isSeparator u r = false ↔
        ('0' ≤ r ∧ r ≤ '9') ∨ ('a' ≤ r ∧ r ≤ 'z') ∨ ('A' ≤ r ∧ r ≤ 'Z') ∨ r = '_')) ∧
    (∀ r : Char, ¬ r.toNat ≤ 0x7F →
      (isSeparator u r = true ↔
        u.isLetter r = false ∧ u.isDigit r = false ∧ u.isSpace r = true)) := by
  have hM : (c.WithMessage u msg).Message.data =
      titleFrom u ' ' (firstWord msg.data) ++ fromSpace msg.data := capitalize_data u msg
  have hp := title_append_props u (firstWord msg.data) (fromSpace msg.data) msg.data
    (firstWord_append_fromSpace msg.data) (fromSpace_nil_or_space msg.data)
  rw [← hM] at hp
  obtain ⟨h1, h2, h3, h4, h5⟩ := hp
  refine ⟨⟨rfl, rfl, rfl, rfl⟩, hM, h1, h2, h3, h4, h5, ?_, ?_⟩
  · intro r hr
    unfold isSeparator
    rw [if_pos hr]
    by_cases hd : '0' ≤ r ∧ r ≤ '9'
    · simp [hd]
    · by_cases hl : 'a' ≤ r ∧ r ≤ 'z'
      · simp [hl]
      · by_cases hU : 'A' ≤ r ∧ r ≤ 'Z'
        · simp [hU]
        · by_cases hu : r = '_'
          · simp [hu]
          · simp only [if_neg hd, if_neg hl, if_neg hU, if_neg hu]
            simp only [hd, hl, hU, hu, or_self, iff_false]
            exact Bool.noConfusion
  · intro r hr
    unfold isSeparator
    rw [if_neg hr]
    cases hL : u.isLetter r <;> cases hD : u.isDigit r <;> cases hS : u.isSpace r <;> simp

/-- C14, amended, at the message "pod started": only its first rune is mapped. -/
theorem C14_withMessage_title_of_first_word_witness :
    (Condition.WithMessage asciiTables sampleReady "pod started").Message.data =
      mapFirst (toTitle asciiTables) "pod started".data :=
  (C14_withMessage_title_of_first_word asciiTables sampleReady "pod started").2.2.2.2.2.2.1
    (by decide)

/-- A dash above ASCII is no separator, whatever the tables are, as long as they do
not take it for a space: `Capitalize("a—b c")` is "A—b c". -/
theorem capitalize_dash_above_ascii (u : RuneTables) (h : u.isSpace '—' = false) :
    Capitalize u "a—b c" = "A—b c" := by
  have hsep : isSeparator u '—' = false := by
    unfold isSeparator
    rw [if_neg (by decide)]
    cases hL : u.isLetter '—' <;> cases hD : u.isDigit '—' <;> simp [h]
  have hw : firstWord "a—b c".data = ['a', '—', 'b'] := by decide
  have hf : fromSpace "a—b c".data = [' ', 'c'] := by decide
  have ha : isSeparator u 'a' = false := rfl
  have hA : toTitle u 'a' = 'A' := rfl
  apply String.ext
  rw [capitalize_data, hw, hf]
  simp only [titleFrom, isSeparator_space, hsep, ha, hA, if_true, Bool.false_eq_true, if_false]
  rfl

/-- C15. Only the first word is capitalized: for a string with a space, `Capitalize`
is `strings.Title` of the text before the first space, then that space and the rest as
given; for a string without a space it is `strings.Title` of the string. In particular
`WithMessage("resource not found")` has the message "Resource not found",
`WithMessage("a b c")` has "A b c", `Capitalize("")` is "" and a string that begins with
a space is returned unchanged. -/
theorem C15_capitalize_first_word_only (u : RuneTables) :
    (∀ before after : List Char, ' ' ∉ before →
      Capitalize u (String.mk (before ++ ' ' :: after)) =
        Title u (String.mk before) ++ " " ++ String.mk after) ∧
    (∀ s : String, ' ' ∉ s.data → Capitalize u s = Title u s) ∧
    (∀ c : Condition, (c.WithMessage u "resource not found").Message =
      "Resource not found") ∧
    (∀ c : Condition, (c.WithMessage u "a b c").Message = "A b c") ∧
    Capitalize u "" = "" ∧
    (∀ rest : List Char, Capitalize u (String.mk (' ' :: rest)) = String.mk (' ' :: rest)) := by
  refine ⟨capitalize_of_space u, capitalize_of_no_space u, fun _ => rfl, fun _ => rfl,
    rfl, ?_⟩
  intro rest
  have h := capitalize_of_space u [] rest (by simp)
  simp only [List.nil_append] at h
  rw [h]
  apply String.ext
  simp [Title, titleFrom]

/-- C15 at the string "re-sync failed", whose first space follows "re-sync". -/
theorem C15_capitalize_first_word_only_witness :
    Capitalize asciiTables (String.mk ("re-sync".data ++ ' ' :: "failed".data)) =
      Title asciiTables (String.mk "re-sync".data) ++ " " ++ String.mk "failed".data :=
  (C15_capitalize_first_word_only asciiTables).1 "re-sync".data "failed".data (by decide)

/-- C16. `WithMessagef` capitalizes the format string before the substitution: its
message is the formatter applied to `Capitalize(f)` and the arguments, and type, status,
reason and `LastTransitionTime` are kept. When the first word of `f` is followed by a
space and holds no percent sign, the pattern handed to the formatter is the title-cased
first word followed by the rest of `f` as given, so every verb of `f` is handed over
unchanged; the title-cased first word holds no percent sign either, as long as
title-casing maps none of its runes to one, which no ASCII rune is. -/
theorem C16_withMessagef_capitalizes_format {α : Type} (u : RuneTables)
    (sprintf : String → List α → String) (c : Condition) (f : String) (a : List α) :
    (c.WithMessagef u sprintf f a).Message = sprintf (Capitalize u f) a ∧
    ((c.WithMessagef u sprintf f a).Typ = c.Typ ∧
      (c.WithMessagef u sprintf f a).Status = c.Status ∧
      (c.WithMessagef u sprintf f a).Reason = c.Reason ∧
      (c.WithMessagef u sprintf f a).LastTransitionTime = c.LastTransitionTime) ∧
    (∀ before after : List Char, ' ' ∉ before → '%' ∉ before →
      f = String.mk (before ++ ' ' :: after) →
      Capitalize u f = Title u (String.mk before) ++ " " ++ String.mk after ∧
        ((∀ ch ∈ before, toTitle u ch ≠ '%') → '%' ∉ (Title u (String.mk before)).data)) ∧
    (∀ ch : Char, ch.toNat ≤ 0x7F → ch ≠ '%' → toTitle u ch ≠ '%') := by
  refine ⟨rfl, ⟨rfl, rfl, rfl, rfl⟩, ?_, ?_⟩
  · intro before after hsp hpc hf
    refine ⟨hf ▸ capitalize_of_space u before after hsp, ?_⟩
    intro hT
    apply titleFrom_not_mem
    intro ch hch
    exact ⟨fun hh => hpc (hh ▸ hch), hT ch hch⟩
  · intro ch hascii hne
    unfold toTitle
    rw [if_pos hascii]
    split
    · rename_i hlow
      have h1 : 97 ≤ ch.toNat := hlow.1
      have h2 : ch.toNat ≤ 122 := hlow.2
      intro hh
      have hn : 65 ≤ ch.toNat - 32 ∧ ch.toNat - 32 ≤ 90 := by omega
      generalize ch.toNat - 32 = n at hh hn
      obtain ⟨h5, h6⟩ := hn
      interval_cases n <;> exact absurd hh (by decide)
    · exact hne


/-- C16 at the format "pod %s started", with a formatter that returns its pattern. -/
theorem C16_withMessagef_capitalizes_format_witness :
    Capitalize asciiTables (String.mk ("pod".data ++ ' ' :: "%s started".data)) =
      Title asciiTables (String.mk "pod".data) ++ " " ++ String.mk "%s started".data :=
  ((C16_withMessagef_capitalizes_format asciiTables (fun p (_ : List String) => p)
    sampleReady (String.mk ("pod".data ++ ' ' :: "%s started".data)) []).2.2.1
    "pod".data "%s started".data (by decide) (by decide) rfl).1

end ConditionV1
